import Mathlib

/-!
Verification of the BrLP data-preparation utilities
(`scripts/prepare/prepare_csv_build.py`, `scripts/prepare/convert_to_dataset_csv.py`,
`scripts/prepare/prepare_csv.py`).

Modelling conventions:
* Python strings are modelled as `List Char` (ASCII behaviour of
  `str.upper` / `str.lower` / `str.strip`, which covers the data these
  scripts normalise).
* Python `None` / match failure is `Option`.
* Filesystem contents (the pre-built directory index, the set of existing
  segmentation files) are explicit inputs to the embedded functions, since
  the scripts build them once and then treat them as read-only data.
-/

namespace BrLP

/-- Characters removed by Python `str.strip()` (ASCII whitespace). -/
def isSpaceChar (c : Char) : Bool :=
  c = ' ' || c = '\t' || c = '\n' || c = '\r' ||
  c = Char.ofNat 11 || c = Char.ofNat 12

/-- ASCII case-conversion table: (lower, upper) pairs. -/
def caseTable : List (Char × Char) :=
  [('a','A'), ('b','B'), ('c','C'), ('d','D'), ('e','E'), ('f','F'), ('g','G'),
   ('h','H'), ('i','I'), ('j','J'), ('k','K'), ('l','L'), ('m','M'), ('n','N'),
   ('o','O'), ('p','P'), ('q','Q'), ('r','R'), ('s','S'), ('t','T'), ('u','U'),
   ('v','V'), ('w','W'), ('x','X'), ('y','Y'), ('z','Z')]

/-- ASCII model of Python `str.upper` on a single character. -/
def upChar (c : Char) : Char :=
  ((caseTable.find? (fun p => p.1 = c)).map Prod.snd).getD c

/-- ASCII model of Python `str.lower` on a single character. -/
def lowChar (c : Char) : Char :=
  ((caseTable.find? (fun p => p.2 = c)).map Prod.fst).getD c

/-- Python `str.strip()`: remove whitespace from both ends. -/
def pyStrip (l : List Char) : List Char :=
  (l.dropWhile isSpaceChar).rdropWhile isSpaceChar

/-- Python `s.strip().upper()`, the value normalisation used by
`normalize_sex` and `normalize_dx` in `prepare_csv_build.py`. -/
def stripUpper (l : List Char) : List Char :=
  (pyStrip l).map upChar

/-- `normalize_sex` from `prepare_csv_build.py` (lines 60-64):
`v = (v or '').strip().upper()`; M/MALE ↦ "M", F/FEMALE ↦ "F",
otherwise the (stripped, upper-cased) input is returned unchanged. -/
def normalize_sex (v : List Char) : List Char :=
  if stripUpper v = "M".data ∨ stripUpper v = "MALE".data then "M".data
  else if stripUpper v = "F".data ∨ stripUpper v = "FEMALE".data then "F".data
  else stripUpper v

theorem upChar_cases (c : Char) :
    upChar c = c ∨ ∃ p ∈ caseTable, p.1 = c ∧ upChar c = p.2 := by
  unfold upChar
  cases h : caseTable.find? (fun p => p.1 = c) with
  | none => left; rfl
  | some p =>
    right
    refine ⟨p, List.mem_of_find?_eq_some h, ?_, rfl⟩
    have := List.find?_some h
    simpa using this

theorem upChar_idem (c : Char) : upChar (upChar c) = upChar c := by
  rcases upChar_cases c with h | ⟨p, hp, _, hval⟩
  · rw [h]; exact h
  · rw [hval]
    fin_cases hp <;> decide

theorem isSpaceChar_upChar (c : Char) : isSpaceChar (upChar c) = isSpaceChar c := by
  rcases upChar_cases c with h | ⟨p, hp, hpc, hval⟩
  · rw [h]
  · rw [hval, ← hpc]
    fin_cases hp <;> decide

theorem dropWhile_eq_self_of_front {p : Char → Bool} {m A : List Char}
    (hpre : A <+: m) (hm : List.dropWhile p m = m) : List.dropWhile p A = A := by
  rcases A with _ | ⟨c, rest⟩
  · rfl
  · rcases hpre with ⟨t, ht⟩
    rw [← ht] at hm
    by_cases hc : p c
    · have hle := (List.dropWhile_sublist (l := rest ++ t) p).length_le
      rw [List.cons_append, List.dropWhile_cons, if_pos hc] at hm
      rw [hm] at hle
      simp at hle
    · rw [List.dropWhile_cons, if_neg hc]

theorem pyStrip_pyStrip (l : List Char) : pyStrip (pyStrip l) = pyStrip l := by
  unfold pyStrip
  rw [dropWhile_eq_self_of_front (List.rdropWhile_prefix _ _)
    (List.dropWhile_idempotent _ _), List.rdropWhile_idempotent]

theorem map_upChar_pyStrip (l : List Char) :
    pyStrip (l.map upChar) = (pyStrip l).map upChar := by
  have hfun : isSpaceChar ∘ upChar = isSpaceChar := funext isSpaceChar_upChar
  have hd : ∀ m : List Char, (m.map upChar).dropWhile isSpaceChar =
      (m.dropWhile isSpaceChar).map upChar := by
    intro m
    rw [List.dropWhile_map, hfun]
  unfold pyStrip
  rw [hd, List.rdropWhile, List.rdropWhile, ← List.map_reverse, hd, List.map_reverse]

theorem stripUpper_idem (l : List Char) : stripUpper (stripUpper l) = stripUpper l := by
  unfold stripUpper
  rw [map_upChar_pyStrip, pyStrip_pyStrip, List.map_map]
  congr 1
  funext c
  exact upChar_idem c

/-- C1 counterexample: on input "x", `normalize_sex` returns "X",
which is none of "M", "F", "". -/
theorem normalize_sex_not_total :
    ¬(normalize_sex "x".data = "M".data ∨ normalize_sex "x".data = "F".data ∨
      normalize_sex "x".data = "".data) := by
  decide

/-- C1 (amended): `normalize_sex` maps M/MALE to "M", F/FEMALE to "F", and any
other input to its whitespace-stripped upper-cased form (not to the empty
string); it is idempotent. -/
theorem normalize_sex_amended :
    (∀ v, normalize_sex (normalize_sex v) = normalize_sex v) ∧
    normalize_sex "M".data = "M".data ∧ normalize_sex "male".data = "M".data ∧
    normalize_sex "F".data = "F".data ∧ normalize_sex "female".data = "F".data ∧
    (∀ v, stripUpper v ≠ "M".data → stripUpper v ≠ "MALE".data →
      stripUpper v ≠ "F".data → stripUpper v ≠ "FEMALE".data →
      normalize_sex v = stripUpper v) := by
  refine ⟨?_, by decide, by decide, by decide, by decide, ?_⟩
  · intro v
    by_cases h1 : stripUpper v = "M".data ∨ stripUpper v = "MALE".data
    · have e1 : normalize_sex v = "M".data := by unfold normalize_sex; rw [if_pos h1]
      rw [e1]
      decide
    · by_cases h2 : stripUpper v = "F".data ∨ stripUpper v = "FEMALE".data
      · have e1 : normalize_sex v = "F".data := by
          unfold normalize_sex; rw [if_neg h1, if_pos h2]
        rw [e1]
        decide
      · have e1 : normalize_sex v = stripUpper v := by
          unfold normalize_sex; rw [if_neg h1, if_neg h2]
        rw [e1]
        unfold normalize_sex
        rw [stripUpper_idem, if_neg h1, if_neg h2]
  · intro v hM hMALE hF hFEMALE
    unfold normalize_sex
    rw [if_neg (by tauto), if_neg (by tauto)]

/-- C1 witness: idempotence and the fall-through branch evaluated at
concrete inputs via `normalize_sex_amended`. -/
theorem normalize_sex_amended_witness :
    normalize_sex (normalize_sex " ad ".data) = normalize_sex " ad ".data ∧
    normalize_sex " ad ".data = stripUpper " ad ".data := by
  exact ⟨normalize_sex_amended.1 " ad ".data,
    normalize_sex_amended.2.2.2.2.2 " ad ".data (by decide) (by decide) (by decide) (by decide)⟩

/-! ### Latent-path derivation (`convert_to_dataset_csv.py`, line 177)

`latent_path = image_path.replace(".nii.gz", "_latent.npz").replace(".nii", "_latent.npz")`
Python `str.replace` substitutes every non-overlapping occurrence, scanning
left to right. `replaceAllF` carries a fuel argument (structural recursion);
`replaceAll` instantiates it with the text length, which always suffices
because each step consumes at least one character. -/

def replaceAllF (needle repl : List Char) : Nat → List Char → List Char
  | _, [] => []
  | 0, text => text
  | fuel + 1, c :: rest =>
    if needle ≠ [] ∧ needle <+: (c :: rest) then
      repl ++ replaceAllF needle repl fuel (List.drop needle.length (c :: rest))
    else
      c :: replaceAllF needle repl fuel rest

/-- Python `text.replace(needle, repl)` for a non-empty `needle`. -/
def replaceAll (needle repl text : List Char) : List Char :=
  replaceAllF needle repl text.length text

/-- Line 177 of `convert_to_dataset_csv.py` applied to an image path. -/
def latent_of (image_path : List Char) : List Char :=
  replaceAll ".nii".data "_latent.npz".data
    (replaceAll ".nii.gz".data "_latent.npz".data image_path)

theorem replaceAllF_fuel (n r : List Char) :
    ∀ f1 f2 text, text.length ≤ f1 → text.length ≤ f2 →
      replaceAllF n r f1 text = replaceAllF n r f2 text := by
  intro f1
  induction f1 with
  | zero =>
    intro f2 text h1 _
    have : text = [] := List.eq_nil_of_length_eq_zero (Nat.le_zero.mp h1)
    subst this
    cases f2 <;> rfl
  | succ f1 ih =>
    intro f2 text h1 h2
    cases text with
    | nil => cases f2 <;> rfl
    | cons c rest =>
      cases f2 with
      | zero => simp at h2
      | succ f2 =>
        simp only [replaceAllF]
        split_ifs with h
        · have hn1 : 1 ≤ n.length := by
            cases hn : n
            · exact absurd hn h.1
            · simp
          have hd1 : (List.drop n.length (c :: rest)).length ≤ f1 := by
            simp only [List.length_drop, List.length_cons]
            simp only [List.length_cons] at h1
            omega
          have hd2 : (List.drop n.length (c :: rest)).length ≤ f2 := by
            simp only [List.length_drop, List.length_cons]
            simp only [List.length_cons] at h2
            omega
          rw [ih f2 _ hd1 hd2]
        · simp only [List.length_cons] at h1 h2
          rw [ih f2 rest (by omega) (by omega)]

theorem replaceAll_cons (n r : List Char) (c : Char) (rest : List Char) :
    replaceAll n r (c :: rest) =
      if n ≠ [] ∧ n <+: (c :: rest) then
        r ++ replaceAll n r (List.drop n.length (c :: rest))
      else c :: replaceAll n r rest := by
  unfold replaceAll
  simp only [List.length_cons, replaceAllF]
  split_ifs with h
  · congr 1
    apply replaceAllF_fuel
    · have hn1 : 1 ≤ n.length := by
        cases hn : n
        · exact absurd hn h.1
        · simp
      simp only [List.length_drop, List.length_cons]
      omega
    · exact Nat.le_refl _
  · rfl

/-- If `n` starts with `hd` and `hd` does not occur in `a`, replacement skips
over `a`. -/
theorem replaceAll_skip (n r : List Char) (hd : Char) (hn : n.head? = some hd) :
    ∀ a b : List Char, hd ∉ a → replaceAll n r (a ++ b) = a ++ replaceAll n r b := by
  intro a
  induction a with
  | nil => intro b _; rfl
  | cons c a ih =>
    intro b ha
    simp only [List.mem_cons, not_or] at ha
    obtain ⟨hac, haa⟩ := ha
    rw [List.cons_append, replaceAll_cons]
    have hnp : ¬(n ≠ [] ∧ n <+: (c :: (a ++ b))) := by
      rintro ⟨hne, hpre⟩
      cases n with
      | nil => exact hne rfl
      | cons x xs =>
        simp only [List.head?_cons, Option.some.injEq] at hn
        rcases hpre with ⟨t2, ht2⟩
        rw [List.cons_append] at ht2
        injection ht2 with hx _
        exact hac (hn ▸ hx)
    rw [if_neg hnp, ih b haa, List.cons_append]

/-- C8 counterexample: for a matched path whose directory name contains
".nii", the code's global `str.replace` rewrites the directory name too, so
the latent path is NOT just the image path with its terminal imaging suffix
swapped. -/
theorem latent_of_not_suffix_only :
    latent_of "/d.nii/turboprep_Warped.nii.gz".data =
      "/d_latent.npz/turboprep_Warped_latent.npz".data ∧
    latent_of "/d.nii/turboprep_Warped.nii.gz".data ≠
      "/d.nii/turboprep_Warped_latent.npz".data := by
  decide

/-- C8 (amended): the code replaces every occurrence of ".nii.gz" and then
".nii" throughout the path string; when the directory prefix contains no '.'
character (so the imaging suffix occurs only at the end of the basename),
this equals replacing just the terminal imaging suffix with "_latent.npz". -/
theorem latent_of_amended (dir : List Char) (hdot : '.' ∉ dir) :
    latent_of (dir ++ "/turboprep_Warped.nii.gz".data) =
      dir ++ "/turboprep_Warped_latent.npz".data ∧
    latent_of (dir ++ "/turboprep_Warped.nii".data) =
      dir ++ "/turboprep_Warped_latent.npz".data := by
  have hno1 : '.' ∉ dir ++ "/turboprep_Warped".data := by
    rw [List.mem_append]
    rintro (h | h)
    · exact hdot h
    · revert h; decide
  have hno2 : '.' ∉ dir ++ "/turboprep_Warped_latent".data := by
    rw [List.mem_append]
    rintro (h | h)
    · exact hdot h
    · revert h; decide
  have h14 : (".nii.gz".data : List Char).head? = some '.' := by decide
  have h24 : (".nii".data : List Char).head? = some '.' := by decide
  constructor
  · show replaceAll ".nii".data "_latent.npz".data
      (replaceAll ".nii.gz".data "_latent.npz".data (dir ++ "/turboprep_Warped.nii.gz".data)) = _
    have e0 : dir ++ "/turboprep_Warped.nii.gz".data =
        (dir ++ "/turboprep_Warped".data) ++ ".nii.gz".data := by
      rw [List.append_assoc]
      congr 1
    rw [e0, replaceAll_skip _ _ '.' h14 _ _ hno1]
    have e1 : replaceAll ".nii.gz".data "_latent.npz".data ".nii.gz".data =
        "_latent.npz".data := by decide
    rw [e1]
    have e2 : (dir ++ "/turboprep_Warped".data) ++ "_latent.npz".data =
        (dir ++ "/turboprep_Warped_latent".data) ++ ".npz".data := by
      rw [List.append_assoc, List.append_assoc]
      congr 1
    rw [e2, replaceAll_skip _ _ '.' h24 _ _ hno2]
    have e3 : replaceAll ".nii".data "_latent.npz".data ".npz".data = ".npz".data := by
      decide
    rw [e3, List.append_assoc]
    congr 1
  · show replaceAll ".nii".data "_latent.npz".data
      (replaceAll ".nii.gz".data "_latent.npz".data (dir ++ "/turboprep_Warped.nii".data)) = _
    have e0 : dir ++ "/turboprep_Warped.nii".data =
        (dir ++ "/turboprep_Warped".data) ++ ".nii".data := by
      rw [List.append_assoc]
      congr 1
    rw [e0, replaceAll_skip _ _ '.' h14 _ _ hno1]
    have e1 : replaceAll ".nii.gz".data "_latent.npz".data ".nii".data = ".nii".data := by
      decide
    rw [e1, replaceAll_skip _ _ '.' h24 _ _ hno1]
    have e2 : replaceAll ".nii".data "_latent.npz".data ".nii".data =
        "_latent.npz".data := by decide
    rw [e2, List.append_assoc]
    congr 1

/-- C8 witness: `latent_of_amended` at a concrete dot-free directory. -/
theorem latent_of_amended_witness :
    latent_of "/data/S1/turboprep_Warped.nii.gz".data =
      "/data/S1/turboprep_Warped_latent.npz".data := by
  have h := (latent_of_amended "/data/S1".data (by decide)).1
  have e : "/data/S1".data ++ "/turboprep_Warped.nii.gz".data =
      "/data/S1/turboprep_Warped.nii.gz".data := by decide
  have e2 : "/data/S1".data ++ "/turboprep_Warped_latent.npz".data =
      "/data/S1/turboprep_Warped_latent.npz".data := by decide
  rw [e, e2] at h
  exact h

/-! ### File candidate matcher (`convert_to_dataset_csv.py`, lines 74-110)

A filesystem path is modelled by its list of segments (`pathlib.Path` of an
absolute path: `parts` is `"/"` followed by the segments, `as_posix()` is
the segments joined by `/` with a leading `/`). -/

structure PPath where
  segs : List (List Char)
deriving DecidableEq, Repr

/-- `path.parts` of an absolute path. -/
def PPath.parts (p : PPath) : List (List Char) :=
  "/".data :: p.segs

/-- `path.as_posix()` of an absolute path. -/
def PPath.posix (p : PPath) : List Char :=
  '/' :: List.intercalate "/".data p.segs

/-- `normalize` from `convert_to_dataset_csv.py` (line 74): `(s or "").strip()`. -/
def normalize (s : List Char) : List Char := pyStrip s

/-- Python tuple comparison `a < b` on 2-tuples of ints. -/
def tupLtB (a b : Int × Int) : Bool :=
  decide (a.1 < b.1 ∨ (a.1 = b.1 ∧ a.2 < b.2))

/-- `score_candidate` (lines 77-99): two-part score
(primary score, prefix-length tie-break). -/
def score_candidate (p : PPath) (subject_id image_id series_id image_visit : List Char) :
    Int × Int :=
  let s_path := p.posix
  let subj := normalize subject_id
  let img := normalize image_id
  let ser := normalize series_id
  let vis := normalize image_visit
  let score1 : Int := if subj ≠ [] ∧ subj ∈ p.parts then 100 else 0
  let score2 : Int := score1 + (if img ≠ [] ∧ img ∈ p.parts then 80 else 0)
  let score3 : Int := score2 + (if img ≠ [] ∧ ∃ part ∈ p.parts, img <+: part then 60 else 0)
  let prefix_len : Int := if img ≠ [] ∧ ∃ part ∈ p.parts, img <+: part then img.length else 0
  let score4 : Int := score3 + (if img ≠ [] ∧ img <:+: s_path then 40 else 0)
  let score5 : Int := score4 + (if ser ≠ [] ∧ ser <:+: s_path then 10 else 0)
  let score6 : Int := score5 + (if vis ≠ [] ∧ vis <:+: s_path then 10 else 0)
  (score6, prefix_len)

/-- The selection loop of `choose_best` (lines 103-107): running best and
best score, starting from `(None, (-1, -1))`, updated on strict tuple
improvement. -/
def chooseAux (score : PPath → Int × Int) :
    List PPath → Option PPath → Int × Int → Option PPath × (Int × Int)
  | [], best, bs => (best, bs)
  | c :: rest, best, bs =>
    if tupLtB bs (score c) then chooseAux score rest (some c) (score c)
    else chooseAux score rest best bs

/-- `choose_best` (lines 101-110). -/
def choose_best (cands : List PPath)
    (subject_id image_id series_id image_visit : List Char) : Option PPath :=
  match cands with
  | [] => none
  | _ :: _ =>
    let res := chooseAux
      (fun c => score_candidate c subject_id image_id series_id image_visit)
      cands none (-1, -1)
    if 1 < cands.length ∧ (res.2).1 ≤ 0 then none else res.1

theorem score_candidate_nonneg (p : PPath) (a b c d : List Char) :
    0 ≤ (score_candidate p a b c d).1 ∧ 0 ≤ (score_candidate p a b c d).2 := by
  simp only [score_candidate]
  split_ifs <;> constructor <;> simp

theorem choose_best_cons (x : PPath) (rest : List PPath) (a b c d : List Char) :
    choose_best (x :: rest) a b c d =
      if 1 < (x :: rest).length ∧
          ((chooseAux (fun p => score_candidate p a b c d) (x :: rest) none (-1, -1)).2).1 ≤ 0
        then none
        else (chooseAux (fun p => score_candidate p a b c d) (x :: rest) none (-1, -1)).1 :=
  rfl

theorem chooseAux_no_beat (score : PPath → Int × Int) :
    ∀ (l : List PPath) (best : Option PPath) (bs : Int × Int),
      (∀ c ∈ l, tupLtB bs (score c) = false) →
      chooseAux score l best bs = (best, bs) := by
  intro l
  induction l with
  | nil => intro best bs _; rfl
  | cons c rest ih =>
    intro best bs h
    simp only [chooseAux]
    rw [h c (List.mem_cons_self c rest)]
    simp only [Bool.false_eq_true, if_false]
    exact ih best bs (fun x hx => h x (List.mem_cons_of_mem c hx))

theorem chooseAux_first_argmax (score : PPath → Int × Int) :
    ∀ (l1 : List PPath) (c : PPath) (l2 : List PPath) (best : Option PPath) (bs : Int × Int),
      tupLtB bs (score c) = true →
      (∀ x ∈ l1, tupLtB (score x) (score c) = true) →
      (∀ x ∈ l2, tupLtB (score c) (score x) = false) →
      chooseAux score (l1 ++ c :: l2) best bs = (some c, score c) := by
  intro l1
  induction l1 with
  | nil =>
    intro c l2 best bs hbs _ h2
    simp only [List.nil_append, chooseAux, hbs, if_true]
    exact chooseAux_no_beat score l2 (some c) (score c) h2
  | cons x l1 ih =>
    intro c l2 best bs hbs h1 h2
    simp only [List.cons_append, chooseAux]
    by_cases hx : tupLtB bs (score x) = true
    · rw [hx]
      simp only [if_true]
      exact ih c l2 (some x) (score x) (h1 x (List.mem_cons_self x l1))
        (fun y hy => h1 y (List.mem_cons_of_mem x hy)) h2
    · rw [Bool.not_eq_true] at hx
      rw [hx]
      simp only [Bool.false_eq_true, if_false]
      exact ih c l2 best bs hbs (fun y hy => h1 y (List.mem_cons_of_mem x hy)) h2

theorem chooseAux_fst_le (score : PPath → Int × Int) :
    ∀ (l : List PPath) (best : Option PPath) (bs : Int × Int),
      bs.1 ≤ 0 → (∀ c ∈ l, (score c).1 ≤ 0) →
      ((chooseAux score l best bs).2).1 ≤ 0 := by
  intro l
  induction l with
  | nil => intro best bs hb _; exact hb
  | cons c rest ih =>
    intro best bs hb h
    simp only [chooseAux]
    split_ifs
    · exact ih (some c) (score c) (h c (List.mem_cons_self c rest))
        (fun x hx => h x (List.mem_cons_of_mem c hx))
    · exact ih best bs hb (fun x hx => h x (List.mem_cons_of_mem c hx))

/-- C2: selection behaviour of `choose_best`. (a) With ≥ 2 candidates all of
primary score ≤ 0 the matcher returns no match; (b) a single candidate is
returned even when unscored; (c) otherwise the first candidate (in
encounter order) whose two-part score is not exceeded by any other wins. -/
theorem choose_best_claim (subject_id image_id series_id image_visit : List Char) :
    (∀ cands, 2 ≤ cands.length →
      (∀ c ∈ cands, (score_candidate c subject_id image_id series_id image_visit).1 ≤ 0) →
      choose_best cands subject_id image_id series_id image_visit = none) ∧
    (∀ c, choose_best [c] subject_id image_id series_id image_visit = some c) ∧
    (∀ l1 c l2,
      (∀ x ∈ l1, tupLtB (score_candidate x subject_id image_id series_id image_visit)
        (score_candidate c subject_id image_id series_id image_visit) = true) →
      (∀ x ∈ l2, tupLtB (score_candidate c subject_id image_id series_id image_visit)
        (score_candidate x subject_id image_id series_id image_visit) = false) →
      ¬(2 ≤ (l1 ++ c :: l2).length ∧
        (score_candidate c subject_id image_id series_id image_visit).1 ≤ 0) →
      choose_best (l1 ++ c :: l2) subject_id image_id series_id image_visit = some c) := by
  refine ⟨?_, ?_, ?_⟩
  · intro cands h2 hle
    cases cands with
    | nil => simp at h2
    | cons c rest =>
      rw [choose_best_cons, if_pos]
      constructor
      · simpa using h2
      · exact chooseAux_fst_le _ (c :: rest) none (-1, -1) (by norm_num) hle
  · intro c
    rw [choose_best_cons]
    have hbs : tupLtB (-1, -1) (score_candidate c subject_id image_id series_id image_visit)
        = true := by
      have := (score_candidate_nonneg c subject_id image_id series_id image_visit).1
      simp only [tupLtB, decide_eq_true_eq]
      left
      omega
    have harg := chooseAux_first_argmax
      (fun x => score_candidate x subject_id image_id series_id image_visit)
      [] c [] none (-1, -1) hbs (by simp) (by simp)
    simp only [List.nil_append] at harg
    rw [harg, if_neg]
    simp
  · intro l1 c l2 h1 h2 hnot
    have hbs : tupLtB (-1, -1) (score_candidate c subject_id image_id series_id image_visit)
        = true := by
      have := (score_candidate_nonneg c subject_id image_id series_id image_visit).1
      simp only [tupLtB, decide_eq_true_eq]
      left
      omega
    cases hm : l1 ++ c :: l2 with
    | nil => exact absurd hm (by simp)
    | cons x rest =>
      rw [hm] at hnot
      rw [choose_best_cons, ← hm,
        chooseAux_first_argmax _ l1 c l2 none (-1, -1) hbs h1 h2, if_neg]
      intro hcontra
      rw [hm] at hcontra
      exact hnot ⟨hcontra.1, hcontra.2⟩

/-- C2 witness: the three branches of `choose_best_claim` at concrete pools
(the two-candidate example from the spec, an unmatched pair, and a lone
unscored candidate). -/
theorem choose_best_claim_witness :
    choose_best [⟨["A".data, "7".data, "im".data]⟩, ⟨["A".data, "8".data, "im".data]⟩]
      "123".data "".data "".data "".data = none ∧
    choose_best [⟨["A".data, "7".data, "im".data]⟩]
      "123".data "".data "".data "".data = some ⟨["A".data, "7".data, "im".data]⟩ ∧
    choose_best [⟨["A".data, "123".data, "img.nii.gz".data]⟩,
        ⟨["A".data, "999".data, "img.nii.gz".data]⟩]
      "123".data "".data "".data "".data = some ⟨["A".data, "123".data, "img.nii.gz".data]⟩ := by
  refine ⟨?_, ?_, ?_⟩
  · exact (choose_best_claim "123".data "".data "".data "".data).1
      [⟨["A".data, "7".data, "im".data]⟩, ⟨["A".data, "8".data, "im".data]⟩]
      (by decide) (by decide)
  · exact (choose_best_claim "123".data "".data "".data "".data).2.1
      ⟨["A".data, "7".data, "im".data]⟩
  · exact (choose_best_claim "123".data "".data "".data "".data).2.2
      [] ⟨["A".data, "123".data, "img.nii.gz".data]⟩
      [⟨["A".data, "999".data, "img.nii.gz".data]⟩]
      (by decide) (by decide) (by decide)

/-! ### Header resolution: `ColFinder` (`prepare_csv_build.py`, lines 73-87)

The canon map is an insertion-ordered association list, as a Python dict.
A compiled regex is modelled by its two match predicates (`fullmatch` and
`search`), which is all `ColFinder.find` consults. -/

/-- Canonical form of a header: lower-case, keep only `[a-z0-9]`
(`re.sub(r"[^a-z0-9]", "", h.lower())`). -/
def canonKey (h : List Char) : List Char :=
  (h.map lowChar).filter (fun c => decide (('a' ≤ c ∧ c ≤ 'z') ∨ ('0' ≤ c ∧ c ≤ '9')))

/-- One step of `ColFinder.__init__`: record `h` under its canonical key
unless the key is empty or already present (first-seen header wins). -/
def canonInsert (canon : List (List Char × List Char)) (h : List Char) :
    List (List Char × List Char) :=
  if canonKey h ≠ [] ∧ ∀ e ∈ canon, e.1 ≠ canonKey h then canon ++ [(canonKey h, h)]
  else canon

/-- `ColFinder.__init__` over the header list. -/
def canonBuild (headers : List (List Char)) : List (List Char × List Char) :=
  headers.foldl canonInsert []

/-- A compiled regex, reduced to the two predicates `ColFinder.find` uses. -/
structure RePat where
  fullm : List Char → Bool
  searchm : List Char → Bool

/-- Inner loop of `ColFinder.find` for one pattern: first canon entry (in
insertion order) whose key full-matches OR search-matches wins. -/
def findKey (pat : RePat) : List (List Char × List Char) → Option (List Char)
  | [] => none
  | (k, orig) :: rest => if pat.fullm k || pat.searchm k then some orig else findKey pat rest

/-- `ColFinder.find` (lines 81-87): try patterns in priority order. -/
def colfinder_find (canon : List (List Char × List Char)) : List RePat → Option (List Char)
  | [] => none
  | pat :: pats =>
    match findKey pat canon with
    | some orig => some orig
    | none => colfinder_find canon pats

/-- The regex `r"split$"`, as its two match predicates. -/
def splitPat : RePat :=
  ⟨fun k => decide (k = "split".data), fun k => decide ("split".data <:+ k)⟩

theorem canonBuild_append (hs1 hs2 : List (List Char)) :
    canonBuild (hs1 ++ hs2) = List.foldl canonInsert (canonBuild hs1) hs2 := by
  simp [canonBuild, List.foldl_append]

theorem mem_foldl_canonInsert (hs : List (List Char)) :
    ∀ (c0 : List (List Char × List Char)) (e : List Char × List Char),
      e ∈ List.foldl canonInsert c0 hs →
      e ∈ c0 ∨ (e.1 = canonKey e.2 ∧ e.2 ∈ hs ∧ e.1 ≠ []) := by
  induction hs with
  | nil => intro c0 e h; exact Or.inl h
  | cons h hs ih =>
    intro c0 e hmem
    simp only [List.foldl_cons] at hmem
    rcases ih (canonInsert c0 h) e hmem with hin | ⟨h1, h2, h3⟩
    · unfold canonInsert at hin
      split_ifs at hin with hc
      · rcases List.mem_append.mp hin with hin | hin
        · exact Or.inl hin
        · simp only [List.mem_singleton] at hin
          subst hin
          exact Or.inr ⟨rfl, List.mem_cons_self h hs, hc.1⟩
      · exact Or.inl hin
    · exact Or.inr ⟨h1, List.mem_cons_of_mem h h2, h3⟩

theorem prefix_foldl_canonInsert (hs : List (List Char)) :
    ∀ c0 : List (List Char × List Char), c0 <+: List.foldl canonInsert c0 hs := by
  induction hs with
  | nil => intro c0; exact List.prefix_refl c0
  | cons h hs ih =>
    intro c0
    simp only [List.foldl_cons]
    refine List.IsPrefix.trans ?_ (ih (canonInsert c0 h))
    unfold canonInsert
    split_ifs
    · exact ⟨[(canonKey h, h)], rfl⟩
    · exact List.prefix_refl c0

/-- C9 counterexample: with headers ["mysplit", "split"] and the pattern
`split$`, the code returns "mysplit" (an earlier substring match) even
though "split" is an exact full match — no full-match preference exists. -/
theorem colfinder_no_fullmatch_preference :
    colfinder_find (canonBuild ["mysplit".data, "split".data]) [splitPat] =
      some "mysplit".data ∧
    splitPat.fullm "mysplit".data = false ∧
    splitPat.fullm "split".data = true ∧
    ("split".data, "split".data) ∈ canonBuild ["mysplit".data, "split".data] := by
  decide

/-- C9 (amended): headers are canonicalized (lower-case, non-alphanumerics
stripped, empty keys dropped, first-seen header wins on collision); patterns
are tried in priority order; within the first pattern that matches at all,
the first canon entry (in first-seen header order) whose key matches —
fully OR as a substring, with no preference between the two — determines
the source column. -/
theorem colfinder_amended :
    (∀ (pat : RePat) (l1 : List (List Char × List Char)) (k orig : List Char) l2,
      (∀ e ∈ l1, (pat.fullm e.1 || pat.searchm e.1) = false) →
      (pat.fullm k || pat.searchm k) = true →
      findKey pat (l1 ++ (k, orig) :: l2) = some orig) ∧
    (∀ canon pat pats orig, findKey pat canon = some orig →
      colfinder_find canon (pat :: pats) = some orig) ∧
    (∀ canon pat pats, findKey pat canon = none →
      colfinder_find canon (pat :: pats) = colfinder_find canon pats) ∧
    (∀ hs1 h hs2, canonKey h ≠ [] →
      (∀ h2 ∈ hs1, canonKey h2 ≠ canonKey h) →
      (canonKey h, h) ∈ canonBuild (hs1 ++ h :: hs2)) ∧
    (∀ headers e, e ∈ canonBuild headers →
      e.1 = canonKey e.2 ∧ e.2 ∈ headers ∧ e.1 ≠ []) := by
  refine ⟨?_, ?_, ?_, ?_, ?_⟩
  · intro pat l1
    induction l1 with
    | nil =>
      intro k orig l2 _ hk
      simp only [List.nil_append, findKey, hk, if_true]
    | cons e l1 ih =>
      intro k orig l2 h1 hk
      obtain ⟨k0, orig0⟩ := e
      simp only [List.cons_append, findKey]
      rw [h1 (k0, orig0) (List.mem_cons_self _ _)]
      simp only [Bool.false_eq_true, if_false]
      exact ih k orig l2 (fun x hx => h1 x (List.mem_cons_of_mem _ hx)) hk
  · intro canon pat pats orig h
    simp only [colfinder_find, h]
  · intro canon pat pats h
    simp only [colfinder_find, h]
  · intro hs1 h hs2 hne hfirst
    rw [canonBuild_append]
    simp only [List.foldl_cons]
    have hstep : canonInsert (canonBuild hs1) h = canonBuild hs1 ++ [(canonKey h, h)] := by
      unfold canonInsert
      rw [if_pos]
      refine ⟨hne, ?_⟩
      intro e he
      rcases mem_foldl_canonInsert hs1 [] e he with hin | ⟨h1, h2, _⟩
      · simp at hin
      · rw [h1]
        exact hfirst e.2 h2
    rw [hstep]
    have hpre := prefix_foldl_canonInsert hs2 (canonBuild hs1 ++ [(canonKey h, h)])
    rcases hpre with ⟨t, ht⟩
    rw [← ht]
    simp
  · intro headers e he
    rcases mem_foldl_canonInsert headers [] e he with hin | h
    · simp at hin
    · exact h

/-- C9 witness: `colfinder_amended` at concrete headers and the `split$`
pattern. -/
theorem colfinder_amended_witness :
    findKey splitPat ([] ++ ("split".data, " Split ".data) :: []) = some " Split ".data ∧
    colfinder_find (canonBuild ["exam".data]) [splitPat, splitPat] =
      colfinder_find (canonBuild ["exam".data]) [splitPat] ∧
    ("split".data, " Split ".data) ∈ canonBuild (["exam".data] ++ " Split ".data :: []) := by
  refine ⟨?_, ?_, ?_⟩
  · exact colfinder_amended.1 splitPat [] "split".data " Split ".data []
      (by intro e he; simp at he) (by decide)
  · exact colfinder_amended.2.2.1 (canonBuild ["exam".data]) splitPat [splitPat] (by decide)
  · exact colfinder_amended.2.2.2.1 ["exam".data] " Split ".data []
      (by decide) (by decide)

/-! ### Dataset rows and automatic split assignment
(`prepare_csv_build.py`, lines 179-188)

`random.shuffle` is modelled by an oracle function, assumed to permute its
input; `int(0.8*n)` and `int(0.1*n)` are modelled by the exact rational
floors `4*n/5` and `n/10`. -/

structure Row where
  subject_id : List Char
  image_uid : List Char
  split : List Char
  sex : List Char
  age : List Char
  diagnosis : List Char
  last_diagnosis : List Char
  image_path : List Char
  segm_path : List Char
  latent_path : List Char
deriving DecidableEq, Repr

/-- Append index `i` to the group of key `k`
(`by_subj.setdefault(k, []).append(i)`), preserving dict insertion order. -/
def addIdx : List (List Char × List Nat) → List Char → Nat → List (List Char × List Nat)
  | [], k, i => [(k, [i])]
  | (k2, l) :: rest, k, i =>
    if k2 = k then (k2, l ++ [i]) :: rest else (k2, l) :: addIdx rest k i

/-- `by_subj`: row indices grouped by subject id, insertion-ordered. -/
def bySubj (rows : List Row) : List (List Char × List Nat) :=
  rows.enum.foldl (fun m p => addIdx m p.2.subject_id p.1) []

/-- Split label for shuffled position `j` in a group of size `n`. -/
def splitLabel (n j : Nat) : List Char :=
  if j < 4 * n / 5 then "train".data
  else if j < 4 * n / 5 + n / 10 then "val".data
  else "test".data

/-- Inner loop body: write the positional label to row `p.2` when its split
is empty (`if not out_rows[ii]['split']: out_rows[ii]['split'] = sp`). -/
def assignStep (n : Nat) (rs : List Row) (p : Nat × Nat) : List Row :=
  match rs[p.2]? with
  | none => rs
  | some r =>
    if r.split = [] then rs.set p.2 { r with split := splitLabel n p.1 } else rs

/-- Per-group assignment over the shuffled index list. -/
def applyGroup (rs : List Row) (idxs : List Nat) : List Row :=
  idxs.enum.foldl (assignStep idxs.length) rs

/-- The `auto_split` phase of `build_dataset`. -/
def autoSplit (shuffle : List Nat → List Nat) (rows : List Row) : List Row :=
  (bySubj rows).foldl (fun rs p => applyGroup rs (shuffle p.2)) rows

/-- Equality of the nine non-split fields. -/
def frameEq (r r2 : Row) : Prop :=
  r2.subject_id = r.subject_id ∧ r2.image_uid = r.image_uid ∧ r2.sex = r.sex ∧
  r2.age = r.age ∧ r2.diagnosis = r.diagnosis ∧ r2.last_diagnosis = r.last_diagnosis ∧
  r2.image_path = r.image_path ∧ r2.segm_path = r.segm_path ∧ r2.latent_path = r.latent_path

def isLabel (s : List Char) : Prop :=
  s = "train".data ∨ s = "val".data ∨ s = "test".data

/-- How a row list may evolve under auto-split steps: each position is
either untouched, or had an empty split that was set to a label, all other
fields intact. -/
def SplitEvol (rs rs2 : List Row) : Prop :=
  rs2.length = rs.length ∧ ∀ i : Nat,
    rs2[i]? = rs[i]? ∨
    ∃ r r2, rs[i]? = some r ∧ rs2[i]? = some r2 ∧ r.split = [] ∧
      frameEq r r2 ∧ isLabel r2.split

theorem frameEq_refl (r : Row) : frameEq r r :=
  ⟨rfl, rfl, rfl, rfl, rfl, rfl, rfl, rfl, rfl⟩

theorem frameEq_trans {a b c : Row} (h1 : frameEq a b) (h2 : frameEq b c) : frameEq a c := by
  unfold frameEq at h1 h2 ⊢
  obtain ⟨e1, e2, e3, e4, e5, e6, e7, e8, e9⟩ := h1
  obtain ⟨f1, f2, f3, f4, f5, f6, f7, f8, f9⟩ := h2
  exact ⟨f1.trans e1, f2.trans e2, f3.trans e3, f4.trans e4, f5.trans e5,
    f6.trans e6, f7.trans e7, f8.trans e8, f9.trans e9⟩

theorem isLabel_ne_nil {s : List Char} (h : isLabel s) : s ≠ [] := by
  rcases h with h | h | h <;> subst h <;> decide

theorem splitEvol_refl (rs : List Row) : SplitEvol rs rs :=
  ⟨rfl, fun _ => Or.inl rfl⟩

theorem splitEvol_trans {a b c : List Row} (h1 : SplitEvol a b) (h2 : SplitEvol b c) :
    SplitEvol a c := by
  refine ⟨h2.1.trans h1.1, fun i => ?_⟩
  rcases h2.2 i with hc | ⟨r, r2, hb, hc2, hsp, hf, hl⟩
  · rcases h1.2 i with hb | ⟨r, r2, ha, hb2, hsp, hf, hl⟩
    · exact Or.inl (hc.trans hb)
    · exact Or.inr ⟨r, r2, ha, hc.trans hb2, hsp, hf, hl⟩
  · rcases h1.2 i with hb2 | ⟨q, q2, ha, hb3, hsp2, hf2, hl2⟩
    · exact Or.inr ⟨r, r2, hb2.symm.trans hb, hc2, hsp, hf, hl⟩
    · rw [hb3] at hb
      injection hb with hb
      subst hb
      exact absurd hsp (isLabel_ne_nil hl2)

theorem splitLabel_isLabel (n j : Nat) : isLabel (splitLabel n j) := by
  unfold splitLabel isLabel
  split_ifs <;> tauto

theorem assignStep_evol (n : Nat) (rs : List Row) (p : Nat × Nat) :
    SplitEvol rs (assignStep n rs p) := by
  unfold assignStep
  cases h : rs[p.2]? with
  | none => exact splitEvol_refl rs
  | some r =>
    dsimp only
    split_ifs with hsp
    · have hlt : p.2 < rs.length := by
        by_contra hge
        rw [List.getElem?_eq_none (by omega)] at h
        exact Option.noConfusion h
      refine ⟨by simp, fun i => ?_⟩
      by_cases hi : p.2 = i
      · subst hi
        refine Or.inr ⟨r, { r with split := splitLabel n p.1 }, h, ?_, hsp, ?_, ?_⟩
        · simp [List.getElem?_set, hlt]
        · exact ⟨rfl, rfl, rfl, rfl, rfl, rfl, rfl, rfl, rfl⟩
        · exact splitLabel_isLabel n p.1
      · exact Or.inl (List.getElem?_set_ne hi)
    · exact splitEvol_refl rs

theorem foldl_evol {α : Type} (f : List Row → α → List Row)
    (hf : ∀ rs x, SplitEvol rs (f rs x)) :
    ∀ (l : List α) (rs : List Row), SplitEvol rs (List.foldl f rs l) := by
  intro l
  induction l with
  | nil => intro rs; exact splitEvol_refl rs
  | cons x l ih =>
    intro rs
    rw [List.foldl_cons]
    exact splitEvol_trans (hf rs x) (ih (f rs x))

theorem autoSplit_evol (shuffle : List Nat → List Nat) (rows : List Row) :
    SplitEvol rows (autoSplit shuffle rows) := by
  unfold autoSplit
  apply foldl_evol
  intro rs p
  unfold applyGroup
  exact foldl_evol _ (fun rs2 x => assignStep_evol _ rs2 x) _ rs

def nonemptySplitAt (rs : List Row) (i : Nat) : Prop :=
  ∃ r, rs[i]? = some r ∧ r.split ≠ []

theorem splitLabel_ne_nil (n j : Nat) : splitLabel n j ≠ [] :=
  isLabel_ne_nil (splitLabel_isLabel n j)

theorem evol_preserves_ne {rs rs2 : List Row} (h : SplitEvol rs rs2) {i : Nat}
    (hne : nonemptySplitAt rs i) : nonemptySplitAt rs2 i := by
  obtain ⟨r, hr, hrs⟩ := hne
  rcases h.2 i with he | ⟨q, q2, hq, hq2, _, _, hl⟩
  · exact ⟨r, he.trans hr, hrs⟩
  · exact ⟨q2, hq2, isLabel_ne_nil hl⟩

theorem assignStep_length (n : Nat) (rs : List Row) (p : Nat × Nat) :
    (assignStep n rs p).length = rs.length :=
  (assignStep_evol n rs p).1

theorem assignStep_sets (n : Nat) (rs : List Row) (j i : Nat) (hlen : i < rs.length) :
    nonemptySplitAt (assignStep n rs (j, i)) i := by
  unfold assignStep
  cases h : rs[i]? with
  | none =>
    rw [List.getElem?_eq_none_iff] at h
    omega
  | some r =>
    dsimp only
    split_ifs with hsp
    · exact ⟨{ r with split := splitLabel n j }, by simp [List.getElem?_set, hlen],
        splitLabel_ne_nil n j⟩
    · exact ⟨r, h, hsp⟩

theorem foldl_assign_sets (n : Nat) (i : Nat) :
    ∀ (l : List (Nat × Nat)) (rs : List Row), i < rs.length →
      ((∃ p ∈ l, p.2 = i) ∨ nonemptySplitAt rs i) →
      nonemptySplitAt (List.foldl (assignStep n) rs l) i := by
  intro l
  induction l with
  | nil =>
    intro rs _ hd
    rcases hd with ⟨p, hp, _⟩ | hd
    · simp at hp
    · exact hd
  | cons p l ih =>
    intro rs hlen hd
    rw [List.foldl_cons]
    have hlen2 : i < (assignStep n rs p).length := by rw [assignStep_length]; exact hlen
    apply ih _ hlen2
    rcases hd with ⟨q, hq, hqi⟩ | hd
    · rcases List.mem_cons.mp hq with hq | hq
      · subst hq
        right
        obtain ⟨j2, i2⟩ := q
        subst hqi
        exact assignStep_sets n rs j2 _ hlen
      · exact Or.inl ⟨q, hq, hqi⟩
    · exact Or.inr (evol_preserves_ne (assignStep_evol n rs p) hd)

theorem applyGroup_sets (rs : List Row) (idxs : List Nat) (i : Nat)
    (hi : i ∈ idxs) (hlen : i < rs.length) : nonemptySplitAt (applyGroup rs idxs) i := by
  unfold applyGroup
  apply foldl_assign_sets _ _ _ _ hlen
  left
  obtain ⟨j, hj⟩ := List.get?_of_mem hi
  exact ⟨(j, i), List.mk_mem_enum_iff_get?.mpr hj, rfl⟩

theorem addIdx_mem_preserve {m : List (List Char × List Nat)} {i : Nat}
    (h : ∃ g ∈ m, i ∈ g.2) (k : List Char) (j : Nat) :
    ∃ g ∈ addIdx m k j, i ∈ g.2 := by
  induction m with
  | nil => simp at h
  | cons e m ih =>
    obtain ⟨k2, l⟩ := e
    obtain ⟨g, hg, hig⟩ := h
    unfold addIdx
    split_ifs with hk
    · rcases List.mem_cons.mp hg with hg | hg
      · subst hg
        exact ⟨(k2, l ++ [j]), List.mem_cons_self _ _, List.mem_append_left _ hig⟩
      · exact ⟨g, List.mem_cons_of_mem _ hg, hig⟩
    · rcases List.mem_cons.mp hg with hg | hg
      · subst hg
        exact ⟨(k2, l), List.mem_cons_self _ _, hig⟩
      · obtain ⟨g2, hg2, hig2⟩ := ih ⟨g, hg, hig⟩
        exact ⟨g2, List.mem_cons_of_mem _ hg2, hig2⟩

theorem addIdx_adds (m : List (List Char × List Nat)) (k : List Char) (i : Nat) :
    ∃ g ∈ addIdx m k i, i ∈ g.2 := by
  induction m with
  | nil => exact ⟨(k, [i]), List.mem_singleton_self _, List.mem_singleton_self _⟩
  | cons e m ih =>
    obtain ⟨k2, l⟩ := e
    unfold addIdx
    split_ifs with hk
    · exact ⟨(k2, l ++ [i]), List.mem_cons_self _ _, List.mem_append_right _
        (List.mem_singleton_self _)⟩
    · obtain ⟨g, hg, hig⟩ := ih
      exact ⟨g, List.mem_cons_of_mem _ hg, hig⟩

theorem bySubj_complete (rows : List Row) (i : Nat) (r : Row) (hi : rows[i]? = some r) :
    ∃ g ∈ bySubj rows, i ∈ g.2 := by
  unfold bySubj
  have hmem : (i, r) ∈ rows.enum := List.mk_mem_enum_iff_get?.mpr (by simpa using hi)
  obtain ⟨l1, l2, hsplit⟩ := List.append_of_mem hmem
  rw [hsplit, List.foldl_append, List.foldl_cons]
  have hstart := addIdx_adds (List.foldl (fun m p => addIdx m p.2.subject_id p.1) [] l1)
    r.subject_id i
  clear hi hmem hsplit
  generalize addIdx (List.foldl (fun m p => addIdx m p.2.subject_id p.1) [] l1)
    r.subject_id i = m0 at hstart ⊢
  induction l2 generalizing m0 with
  | nil => exact hstart
  | cons q l2 ih =>
    rw [List.foldl_cons]
    exact ih _ (addIdx_mem_preserve hstart _ _)

theorem foldl_groups_preserve_ne (shuffle : List Nat → List Nat) (i : Nat) :
    ∀ (gs : List (List Char × List Nat)) (rs : List Row), nonemptySplitAt rs i →
      nonemptySplitAt (List.foldl (fun rs p => applyGroup rs (shuffle p.2)) rs gs) i := by
  intro gs
  induction gs with
  | nil => intro rs h; exact h
  | cons g gs ih =>
    intro rs h
    rw [List.foldl_cons]
    apply ih
    exact evol_preserves_ne (foldl_evol _ (fun rs2 x => assignStep_evol _ rs2 x) _ rs) h

theorem foldl_groups_length (shuffle : List Nat → List Nat) :
    ∀ (gs : List (List Char × List Nat)) (rs : List Row),
      (List.foldl (fun rs p => applyGroup rs (shuffle p.2)) rs gs).length = rs.length := by
  intro gs
  induction gs with
  | nil => intro rs; rfl
  | cons g gs ih =>
    intro rs
    rw [List.foldl_cons, ih]
    exact (foldl_evol _ (fun rs2 x => assignStep_evol _ rs2 x) _ rs).1

theorem autoSplit_fills (shuffle : List Nat → List Nat) (hsh : ∀ l : List Nat, List.Perm (shuffle l) l)
    (rows : List Row) (i : Nat) (r : Row) (hi : rows[i]? = some r) :
    nonemptySplitAt (autoSplit shuffle rows) i := by
  obtain ⟨g, hg, hig⟩ := bySubj_complete rows i r hi
  obtain ⟨gs1, gs2, hsplit⟩ := List.append_of_mem hg
  unfold autoSplit
  rw [hsplit, List.foldl_append, List.foldl_cons]
  apply foldl_groups_preserve_ne
  apply applyGroup_sets
  · exact ((hsh g.2).mem_iff).mpr hig
  · rw [foldl_groups_length]
    by_contra hge
    have hnone : rows[i]? = none := List.getElem?_eq_none (by omega)
    rw [hnone] at hi
    exact Option.noConfusion hi

theorem countP_range_lt (a : Nat) :
    ∀ m, (List.range m).countP (fun j => decide (j < a)) = min m a := by
  intro m
  induction m with
  | zero => simp
  | succ m ih =>
    rw [List.range_succ, List.countP_append, ih]
    by_cases h : m < a <;> simp [List.countP_cons, h] <;> omega

theorem countP_range_ge (a : Nat) :
    ∀ m, (List.range m).countP (fun j => decide (a ≤ j)) = m - min m a := by
  intro m
  induction m with
  | zero => simp
  | succ m ih =>
    rw [List.range_succ, List.countP_append, ih]
    by_cases h : a ≤ m <;> simp [List.countP_cons, h] <;> omega

theorem countP_range_band (a b : Nat) :
    ∀ m, (List.range m).countP (fun j => decide (a ≤ j ∧ j < b)) = min m b - min m a := by
  intro m
  induction m with
  | zero => simp
  | succ m ih =>
    rw [List.range_succ, List.countP_append, ih]
    by_cases h1 : a ≤ m <;> by_cases h2 : m < b <;>
      simp [List.countP_cons, h1, h2] <;> omega

theorem splitLabel_eq_iff (n j : Nat) :
    (splitLabel n j = "train".data ↔ j < 4 * n / 5) ∧
    (splitLabel n j = "val".data ↔ (4 * n / 5 ≤ j ∧ j < 4 * n / 5 + n / 10)) ∧
    (splitLabel n j = "test".data ↔ 4 * n / 5 + n / 10 ≤ j) := by
  unfold splitLabel
  split_ifs with h1 h2
  · refine ⟨⟨fun _ => h1, fun _ => rfl⟩, ⟨fun he => absurd he (by decide), ?_⟩,
      ⟨fun he => absurd he (by decide), fun hj => by omega⟩⟩
    intro hj
    omega
  · refine ⟨⟨fun he => absurd he (by decide), fun hj => absurd hj h1⟩,
      ⟨fun _ => by omega, fun _ => rfl⟩,
      ⟨fun he => absurd he (by decide), fun hj => by omega⟩⟩
  · refine ⟨⟨fun he => absurd he (by decide), fun hj => absurd hj h1⟩,
      ⟨fun he => absurd he (by decide), fun hj => absurd hj.2 h2⟩,
      ⟨fun _ => by omega, fun _ => rfl⟩⟩

/-- C10: the auto-split phase preserves the length and all non-split
fields of every row, leaves every non-empty split untouched, fills every
empty split with one of train/val/test, and the positional labelling of a
group of size `n` assigns train/val/test in proportion
`⌊0.8n⌋ / ⌊0.1n⌋ / rest`. -/
theorem autoSplit_claim (shuffle : List Nat → List Nat) (hsh : ∀ l : List Nat, List.Perm (shuffle l) l)
    (rows : List Row) :
    (autoSplit shuffle rows).length = rows.length ∧
    (∀ (i : Nat) (r r2 : Row), rows[i]? = some r → (autoSplit shuffle rows)[i]? = some r2 →
      frameEq r r2 ∧ (r.split ≠ [] → r2 = r) ∧ (r.split = [] → isLabel r2.split)) ∧
    (∀ n, (List.range n).countP (fun j => decide (splitLabel n j = "train".data)) = 4 * n / 5 ∧
      (List.range n).countP (fun j => decide (splitLabel n j = "val".data)) = n / 10 ∧
      (List.range n).countP (fun j => decide (splitLabel n j = "test".data)) =
        n - 4 * n / 5 - n / 10) := by
  have hevol := autoSplit_evol shuffle rows
  refine ⟨hevol.1, ?_, ?_⟩
  · intro i r r2 hr hr2
    rcases hevol.2 i with he | ⟨q, q2, hq, hq2, hsp, hf, hl⟩
    · rw [he, hr] at hr2
      injection hr2 with hr2
      subst hr2
      refine ⟨frameEq_refl r, fun _ => rfl, ?_⟩
      intro hsp
      obtain ⟨q, hq, hqne⟩ := autoSplit_fills shuffle hsh rows i r hr
      rw [he, hr] at hq
      injection hq with hq
      exact absurd (hq ▸ hsp) hqne
    · rw [hq] at hr
      injection hr with hr
      subst hr
      rw [hq2] at hr2
      injection hr2 with hr2
      subst hr2
      exact ⟨hf, fun hne => absurd hsp hne, fun _ => hl⟩
  · intro n
    have h1 : (List.range n).countP (fun j => decide (splitLabel n j = "train".data)) =
        (List.range n).countP (fun j => decide (j < 4 * n / 5)) := by
      apply List.countP_congr
      intro j _
      simp only [decide_eq_true_eq]
      exact (splitLabel_eq_iff n j).1
    have h2 : (List.range n).countP (fun j => decide (splitLabel n j = "val".data)) =
        (List.range n).countP (fun j => decide (4 * n / 5 ≤ j ∧ j < 4 * n / 5 + n / 10)) := by
      apply List.countP_congr
      intro j _
      simp only [decide_eq_true_eq]
      exact (splitLabel_eq_iff n j).2.1
    have h3 : (List.range n).countP (fun j => decide (splitLabel n j = "test".data)) =
        (List.range n).countP (fun j => decide (4 * n / 5 + n / 10 ≤ j)) := by
      apply List.countP_congr
      intro j _
      simp only [decide_eq_true_eq]
      exact (splitLabel_eq_iff n j).2.2
    rw [h1, h2, h3, countP_range_lt, countP_range_band, countP_range_ge]
    refine ⟨by omega, by omega, by omega⟩

/-- C10 witness: `autoSplit_claim` with the identity shuffle on a one-row
dataset. -/
theorem autoSplit_claim_witness :
    (autoSplit (fun l => l)
      [⟨"s".data, "1".data, [], [], [], [], [], [], [], []⟩]).length =
      [(⟨"s".data, "1".data, [], [], [], [], [], [], [], []⟩ : Row)].length :=
  (autoSplit_claim (fun l => l) (fun l => List.Perm.refl l)
    [⟨"s".data, "1".data, [], [], [], [], [], [], [], []⟩]).1

/-! ### Timestamp extractor (`prepare_csv.py`, lines 32-34 and 58-81)

The three regexes TS14 / TS8 / Y4 are embedded as character-level scanners.
`re.search` scans positions left to right; the `(?<!\d)` lookbehind is the
`prevNonDigit` flag, the `(?!\d)` lookahead is the boundary check on the
following character. `strptime` validation (calendar validity) is applied
by the caller to the first regex match, exactly as in the source. -/

structure DT where
  y : Nat
  mo : Nat
  d : Nat
  h : Nat
  mi : Nat
  s : Nat
deriving DecidableEq, Repr

/-- Numeric value of a digit character. -/
def dval (c : Char) : Nat := c.toNat - '0'.toNat

/-- Character at index `i`, blank-padded. -/
def cAt (l : List Char) (i : Nat) : Char := l.getD i ' '

/-- Match of the TS14 regex
`(?<!\d)([12]\d{3})([01]\d)([0-3]\d)([0-2]\d)([0-5]\d)([0-5]\d)(?!\d)`
anchored at the start of `l` (the lookbehind is handled by the caller). -/
def ts14At (l : List Char) : Option DT :=
  if 14 ≤ l.length ∧
      (cAt l 0 = '1' ∨ cAt l 0 = '2') ∧ (cAt l 1).isDigit ∧ (cAt l 2).isDigit ∧
      (cAt l 3).isDigit ∧
      (cAt l 4 = '0' ∨ cAt l 4 = '1') ∧ (cAt l 5).isDigit ∧
      ('0' ≤ cAt l 6 ∧ cAt l 6 ≤ '3') ∧ (cAt l 7).isDigit ∧
      ('0' ≤ cAt l 8 ∧ cAt l 8 ≤ '2') ∧ (cAt l 9).isDigit ∧
      ('0' ≤ cAt l 10 ∧ cAt l 10 ≤ '5') ∧ (cAt l 11).isDigit ∧
      ('0' ≤ cAt l 12 ∧ cAt l 12 ≤ '5') ∧ (cAt l 13).isDigit ∧
      (l.drop 14).head?.all (fun c => !c.isDigit) = true then
    some ⟨dval (cAt l 0) * 1000 + dval (cAt l 1) * 100 + dval (cAt l 2) * 10 + dval (cAt l 3),
          dval (cAt l 4) * 10 + dval (cAt l 5),
          dval (cAt l 6) * 10 + dval (cAt l 7),
          dval (cAt l 8) * 10 + dval (cAt l 9),
          dval (cAt l 10) * 10 + dval (cAt l 11),
          dval (cAt l 12) * 10 + dval (cAt l 13)⟩
  else none

/-- Match of the TS8 regex `(?<!\d)([12]\d{3})([01]\d)([0-3]\d)(?!\d)`
anchored at the start of `l`; time defaults to midnight. -/
def ts8At (l : List Char) : Option DT :=
  if 8 ≤ l.length ∧
      (cAt l 0 = '1' ∨ cAt l 0 = '2') ∧ (cAt l 1).isDigit ∧ (cAt l 2).isDigit ∧
      (cAt l 3).isDigit ∧
      (cAt l 4 = '0' ∨ cAt l 4 = '1') ∧ (cAt l 5).isDigit ∧
      ('0' ≤ cAt l 6 ∧ cAt l 6 ≤ '3') ∧ (cAt l 7).isDigit ∧
      (l.drop 8).head?.all (fun c => !c.isDigit) = true then
    some ⟨dval (cAt l 0) * 1000 + dval (cAt l 1) * 100 + dval (cAt l 2) * 10 + dval (cAt l 3),
          dval (cAt l 4) * 10 + dval (cAt l 5),
          dval (cAt l 6) * 10 + dval (cAt l 7), 0, 0, 0⟩
  else none

/-- Match of the Y4 regex `(?<!\d)([12]\d{3})(?!\d)` anchored at the start
of `l`; defaults to January 1st, midnight. -/
def y4At (l : List Char) : Option DT :=
  if 4 ≤ l.length ∧
      (cAt l 0 = '1' ∨ cAt l 0 = '2') ∧ (cAt l 1).isDigit ∧ (cAt l 2).isDigit ∧
      (cAt l 3).isDigit ∧
      (l.drop 4).head?.all (fun c => !c.isDigit) = true then
    some ⟨dval (cAt l 0) * 1000 + dval (cAt l 1) * 100 + dval (cAt l 2) * 10 + dval (cAt l 3),
          1, 1, 0, 0, 0⟩
  else none

/-- `re.search` as a left-to-right scan; `prevNonDigit` encodes the
lookbehind `(?<!\d)` (true at the string start). -/
def searchAux (at0 : List Char → Option DT) : Bool → List Char → Option DT
  | _, [] => none
  | prevNonDigit, c :: rest =>
    match (if prevNonDigit then at0 (c :: rest) else none) with
    | some g => some g
    | none => searchAux at0 (!c.isDigit) rest

/-- Gregorian leap year. -/
def isLeap (y : Nat) : Bool := decide (y % 4 = 0 ∧ (y % 100 ≠ 0 ∨ y % 400 = 0))

/-- Days in a month. -/
def daysInMonth (y mo : Nat) : Nat :=
  if mo = 1 ∨ mo = 3 ∨ mo = 5 ∨ mo = 7 ∨ mo = 8 ∨ mo = 10 ∨ mo = 12 then 31
  else if mo = 2 then (if isLeap y then 29 else 28)
  else 30

/-- `datetime.strptime` calendar validation of the matched groups. -/
def validDT (g : DT) : Bool :=
  decide (1 ≤ g.mo ∧ g.mo ≤ 12 ∧ 1 ≤ g.d ∧ g.d ≤ daysInMonth g.y g.mo ∧
    g.h ≤ 23 ∧ g.mi ≤ 59 ∧ g.s ≤ 59)

/-- First loop of `parse_timestamp_from_texts`: TS14 over all texts; a
regex match that fails `strptime` moves on to the next text. -/
def phase14 : List (List Char) → Option DT
  | [] => none
  | t :: ts =>
    if t = [] then phase14 ts
    else match searchAux ts14At true t with
      | some g => if validDT g then some g else phase14 ts
      | none => phase14 ts

/-- Second loop: TS8 over all texts. -/
def phase8 : List (List Char) → Option DT
  | [] => none
  | t :: ts =>
    if t = [] then phase8 ts
    else match searchAux ts8At true t with
      | some g => if validDT g then some g else phase8 ts
      | none => phase8 ts

/-- Third loop: Y4 over all texts (the year + "0101000000" always parses). -/
def phaseY4 : List (List Char) → Option DT
  | [] => none
  | t :: ts =>
    if t = [] then phaseY4 ts
    else match searchAux y4At true t with
      | some g => some g
      | none => phaseY4 ts

/-- `parse_timestamp_from_texts` (lines 58-81). -/
def parse_timestamp_from_texts (texts : List (List Char)) : Option DT :=
  match phase14 texts with
  | some g => some g
  | none =>
    match phase8 texts with
    | some g => some g
    | none => phaseY4 texts

theorem ts14At_none_of_nondigit {c : Char} (l : List Char) (hc : c.isDigit = false) :
    ts14At (c :: l) = none := by
  unfold ts14At
  rw [if_neg]
  rintro ⟨-, h1, -⟩
  have : (cAt (c :: l) 0) = c := rfl
  rw [this] at h1
  rcases h1 with h1 | h1 <;> subst h1 <;> simp [Char.isDigit] at hc

theorem searchAux_skip (at0 : List Char → Option DT)
    (hat : ∀ (c : Char) (l : List Char), c.isDigit = false → at0 (c :: l) = none) :
    ∀ (pre : List Char), (∀ c ∈ pre, c.isDigit = false) →
      ∀ (suffix : List Char) (b : Bool),
        searchAux at0 b (pre ++ suffix) =
          if pre.isEmpty then searchAux at0 b suffix else searchAux at0 true suffix := by
  intro pre
  induction pre with
  | nil => intro _ suffix b; simp
  | cons c pre ih =>
    intro hpre suffix b
    have hc : c.isDigit = false := hpre c (List.mem_cons_self _ _)
    rw [List.cons_append]
    have hstep : searchAux at0 b (c :: (pre ++ suffix)) =
        searchAux at0 (!c.isDigit) (pre ++ suffix) := by
      cases b
      · simp [searchAux]
      · simp [searchAux, hat c _ hc]
    rw [hstep, hc]
    simp only [Bool.not_false]
    rw [ih (fun x hx => hpre x (List.mem_cons_of_mem _ hx)) suffix true]
    by_cases hp : pre.isEmpty <;> simp [hp]

/-- C4 counterexample: "1999_30000101000000" contains a 14-digit run
flanked by non-digits, yet the extractor falls through to the 4-digit rule
and returns 1999-01-01 (the run fails the TS14 digit classes). -/
theorem parse_ts14_counterexample :
    parse_timestamp_from_texts ["1999_30000101000000".data] = some ⟨1999, 1, 1, 0, 0, 0⟩ ∧
    parse_timestamp_from_texts ["1999_30000101000000".data] ≠ some ⟨3000, 1, 1, 0, 0, 0⟩ := by
  constructor
  · decide
  · decide

/-- C4 (amended): if a fragment is `pre ++ run` where `pre` contains no
digits and the TS14 pattern (digit classes and non-digit right boundary)
matches at the start of `run`, and the matched groups form a valid calendar
date-time, then the extractor returns exactly that date-time — it never
falls through to the 8- or 4-digit rules. (Runs failing the digit classes
or calendar validity do fall through, per the counterexample.) -/
theorem parse_ts14_amended (pre run : List Char) (g : DT)
    (hpre : ∀ c ∈ pre, c.isDigit = false)
    (hat : ts14At run = some g)
    (hvalid : validDT g = true) :
    parse_timestamp_from_texts [pre ++ run] = some g := by
  have hts : searchAux ts14At true (pre ++ run) = some g := by
    rw [searchAux_skip ts14At (fun c l hc => ts14At_none_of_nondigit l hc) pre hpre run true]
    have hrun : ∃ c l, run = c :: l := by
      cases hr : run with
      | nil =>
        rw [hr, show ts14At [] = none by decide] at hat
        exact Option.noConfusion hat
      | cons c l => exact ⟨c, l, rfl⟩
    obtain ⟨c, l, hr⟩ := hrun
    have hone : searchAux ts14At true run = some g := by
      rw [hr]
      unfold searchAux
      rw [if_pos rfl, ← hr, hat]
    by_cases hp : pre.isEmpty <;> simp [hp, hone]
  have hne : pre ++ run ≠ [] := by
    intro h
    rcases List.append_eq_nil.mp h with ⟨-, h2⟩
    rw [h2, show ts14At [] = none by decide] at hat
    exact Option.noConfusion hat
  unfold parse_timestamp_from_texts phase14
  rw [if_neg hne, hts]
  dsimp only
  rw [hvalid]
  simp

/-- C4 witness: `parse_ts14_amended` on the spec's style of input with a
digit-free prefix. -/
theorem parse_ts14_amended_witness :
    parse_timestamp_from_texts ["ADNI_".data ++ "20180315120000_I999999".data] =
      some ⟨2018, 3, 15, 12, 0, 0⟩ :=
  parse_ts14_amended "ADNI_".data "20180315120000_I999999".data
    ⟨2018, 3, 15, 12, 0, 0⟩ (by decide) (by decide) (by decide)

/-! ### Subject pairing engine: `build_B` (`prepare_csv.py`, lines 110-183)

Timestamps are compared and subtracted through `toSec` (seconds since the
civil epoch, via the standard days-from-civil formula), which is how
`datetime` ordering and `timedelta` subtraction behave. The threshold
`timedelta(days=float(min_days) + float(min_years)*365.2425)` is modelled
by exact rational arithmetic; `min_years` is a rational. `lst.sort(key=_dt)`
is a stable sort, modelled by `List.insertionSort` (stable, and any two
stable sorts under a total preorder agree). `re` subject-grouping is
modelled by a capture oracle. -/

/-- Days from civil epoch (1970-01-01) for a Gregorian date; all
intermediate quantities are non-negative for years ≥ 1000. -/
def daysFromCivil (y m d : Nat) : Int :=
  let y2 : Int := (y : Int) - (if m ≤ 2 then 1 else 0)
  let era : Int := y2 / 400
  let yoe : Int := y2 - era * 400
  let mp : Int := ((m : Int) + 9) % 12
  let doy : Int := (153 * mp + 2) / 5 + (d : Int) - 1
  let doe : Int := yoe * 365 + yoe / 4 - yoe / 100 + doy
  era * 146097 + doe - 719468

example : daysFromCivil 1970 1 1 = 0 := by decide

example : daysFromCivil 2001 1 1 - daysFromCivil 2000 1 1 = 366 := by decide

/-- A `datetime` value as seconds since the civil epoch. -/
def toSec (g : DT) : Int :=
  daysFromCivil g.y g.mo g.d * 86400 + g.h * 3600 + g.mi * 60 + g.s

/-- An unreduced rational (numerator over positive denominator), used for
exact threshold arithmetic. (Mathlib's `ℚ` normalises through `Nat.gcd`,
which the kernel cannot evaluate; this representation compares by integer
cross-multiplication and agrees with `ℚ`, see `Frac.lt_iff_rat`.) -/
structure Frac where
  num : Int
  den : Nat
deriving DecidableEq, Repr

def Frac.ofInt (n : Int) : Frac := ⟨n, 1⟩

def Frac.add (a b : Frac) : Frac := ⟨a.num * b.den + b.num * a.den, a.den * b.den⟩

def Frac.mul (a b : Frac) : Frac := ⟨a.num * b.num, a.den * b.den⟩

def Frac.lt (a b : Frac) : Prop := a.num * b.den < b.num * a.den

instance (a b : Frac) : Decidable (a.lt b) :=
  inferInstanceAs (Decidable (a.num * b.den < b.num * a.den))

/-- The value of a `Frac` in `ℚ`. -/
def Frac.toRat (a : Frac) : ℚ := (a.num : ℚ) / (a.den : ℚ)

theorem Frac.lt_iff_rat (a b : Frac) (ha : 0 < a.den) (hb : 0 < b.den) :
    a.lt b ↔ a.toRat < b.toRat := by
  unfold Frac.lt Frac.toRat
  rw [div_lt_div_iff (by exact_mod_cast ha) (by exact_mod_cast hb)]
  constructor <;> intro h <;> exact_mod_cast h

/-- `td_thresh` in seconds:
`timedelta(days=float(min_days) + float(min_years)*365.2425)`
(`365.2425 = 3652425/10000`, exact rational arithmetic). -/
def thresholdSec (min_days : Int) (min_years : Frac) : Frac :=
  ((Frac.ofInt min_days).add (min_years.mul ⟨3652425, 10000⟩)).mul (Frac.ofInt 86400)

inductive Pairing where
  | edge
  | allPairs
deriving DecidableEq, Repr

/-- Subject-grouping rule; the regex mode carries the first-capture-group
oracle of the compiled pattern. -/
inductive GroupMode where
  | exact
  | firstToken
  | rxMode (capture : List Char → Option (List Char))

/-- `subject_group_key` (lines 83-93). In `firstToken` mode Python's
`s.split("_", 1)[0]` is the prefix before the first underscore; in regex
mode `m.group(1) if m else s`. -/
def subject_group_key (subject_id : List Char) (mode : GroupMode) : List Char :=
  let s := pyStrip subject_id
  if s = [] then []
  else
    match mode with
    | .exact => s
    | .firstToken => s.takeWhile (fun c => c ≠ '_')
    | .rxMode capture => (capture s).getD s

/-- Enrichment step (lines 122-128): attach the parsed timestamp, dropping
rows without one. -/
def enrich (rows : List Row) : List (Row × DT) :=
  rows.filterMap (fun r =>
    (parse_timestamp_from_texts [r.image_path, r.image_uid]).map (fun g => (r, g)))

/-- `groups.setdefault(key, []).append(r)`, preserving dict insertion
order. -/
def addRowG : List (List Char × List (Row × DT)) → List Char → (Row × DT) →
    List (List Char × List (Row × DT))
  | [], k, e => [(k, [e])]
  | (k2, l) :: rest, k, e =>
    if k2 = k then (k2, l ++ [e]) :: rest else (k2, l) :: addRowG rest k e

def buildGroups (mode : GroupMode) (enr : List (Row × DT)) :
    List (List Char × List (Row × DT)) :=
  enr.foldl (fun gs e => addRowG gs (subject_group_key e.1.subject_id mode) e) []

/-- Chronological order on enriched rows (the sort key `x["_dt"]`). -/
def dtLe (a b : Row × DT) : Prop := toSec a.2 ≤ toSec b.2

instance : DecidableRel dtLe :=
  fun a b => inferInstanceAs (Decidable (toSec a.2 ≤ toSec b.2))

instance : IsTotal (Row × DT) dtLe :=
  ⟨fun a b => Int.le_total (toSec a.2) (toSec b.2)⟩

instance : IsTrans (Row × DT) dtLe :=
  ⟨fun _ _ _ h1 h2 => Int.le_trans h1 h2⟩

instance : IsRefl (Row × DT) dtLe :=
  ⟨fun a => Int.le_refl (toSec a.2)⟩

/-- `lst.sort(key=lambda x: x["_dt"])` — stable ascending sort. -/
def sortByDt (l : List (Row × DT)) : List (Row × DT) :=
  l.insertionSort dtLe

/-- Edge mode (lines 155-163) on the sorted group. -/
def emitEdge (ss : Bool) (th : Frac) : List (Row × DT) → List Row
  | [] => []
  | a :: rest =>
    let b := (a :: rest).getLast (by simp)
    if ss = true ∧ a.1.split ≠ b.1.split then []
    else if (Frac.ofInt (toSec b.2 - toSec a.2)).lt th then []
    else [a.1, b.1]

/-- Inner loop of all-pairs mode (lines 167-178): scan later rows `j` for
the current earlier row `Ai`; on emission the cap check
`max_pairs_per_subject>0 and count>=max_pairs_per_subject` breaks. -/
def allInner (ss : Bool) (th : Frac) (cap : Nat) (Ai : Row × DT) :
    List (Row × DT) → Nat → List Row → List Row × Nat
  | [], count, acc => (acc, count)
  | Bj :: rest, count, acc =>
    if ss = true ∧ Ai.1.split ≠ Bj.1.split then allInner ss th cap Ai rest count acc
    else if (Frac.ofInt (toSec Bj.2 - toSec Ai.2)).lt th then allInner ss th cap Ai rest count acc
    else
      if 0 < cap ∧ cap ≤ count + 1 then (acc ++ [Ai.1, Bj.1], count + 1)
      else allInner ss th cap Ai rest (count + 1) (acc ++ [Ai.1, Bj.1])

/-- Outer loop of all-pairs mode (lines 166-180): after the inner loop the
same cap condition breaks out of the loop over earlier rows as well. -/
def allOuter (ss : Bool) (th : Frac) (cap : Nat) :
    List (Row × DT) → Nat → List Row → List Row
  | [], _, acc => acc
  | Ai :: rest, count, acc =>
    let r := allInner ss th cap Ai rest count acc
    if 0 < cap ∧ cap ≤ r.2 then r.1 else allOuter ss th cap rest r.2 r.1

/-- Per-group emission (lines 149-180): groups with fewer than two rows are
skipped; otherwise the group is sorted and handled by the pairing mode. -/
def emitGroup (pairing : Pairing) (ss : Bool) (th : Frac) (cap : Nat)
    (lst : List (Row × DT)) : List Row :=
  if lst.length < 2 then []
  else
    match pairing with
    | .edge => emitEdge ss th (sortByDt lst)
    | .allPairs => allOuter ss th cap (sortByDt lst) 0 []

/-- `build_B` (lines 110-183), producing the B.csv data rows. -/
def build_B (pairing : Pairing) (min_days : Int) (min_years : Frac) (same_split : Bool)
    (max_pairs_per_subject : Nat) (mode : GroupMode) (rows : List Row) : List Row :=
  let th := thresholdSec min_days min_years
  (buildGroups mode (enrich rows)).foldl
    (fun acc g => acc ++ emitGroup pairing same_split th max_pairs_per_subject g.2) []

/-- C3's reading of the cap rule, modelled from the claim's words: on
reaching the cap, stop scanning further `j` for the current `i` but
CONTINUE with the next earlier row `i` of the same group (no outer
break). -/
def allOuter_claimC3 (ss : Bool) (th : Frac) (cap : Nat) :
    List (Row × DT) → Nat → List Row → List Row
  | [], _, acc => acc
  | Ai :: rest, count, acc =>
    let r := allInner ss th cap Ai rest count acc
    allOuter_claimC3 ss th cap rest r.2 r.1

/-- `build_B` under C3's claimed semantics. -/
def build_B_claimC3 (pairing : Pairing) (min_days : Int) (min_years : Frac) (same_split : Bool)
    (max_pairs_per_subject : Nat) (mode : GroupMode) (rows : List Row) : List Row :=
  let th := thresholdSec min_days min_years
  (buildGroups mode (enrich rows)).foldl
    (fun acc g => acc ++
      (if g.2.length < 2 then []
       else match pairing with
         | .edge => emitEdge same_split th (sortByDt g.2)
         | .allPairs => allOuter_claimC3 same_split th max_pairs_per_subject
             (sortByDt g.2) 0 [])) []

/-- The qualifying-pair predicate of all-pairs mode: the same-split
constraint (if enabled) and the minimum time gap. -/
def pairOk (ss : Bool) (th : Frac) (a b : Row × DT) : Prop :=
  ¬(ss = true ∧ a.1.split ≠ b.1.split) ∧ ¬(Frac.ofInt (toSec b.2 - toSec a.2)).lt th

instance (ss : Bool) (th : Frac) (a b : Row × DT) : Decidable (pairOk ss th a b) :=
  inferInstanceAs (Decidable (¬(ss = true ∧ a.1.split ≠ b.1.split) ∧
    ¬(Frac.ofInt (toSec b.2 - toSec a.2)).lt th))

/-- All qualifying ordered pairs (i < j) of a list, in scan order. -/
def qualPairs (ss : Bool) (th : Frac) : List (Row × DT) → List ((Row × DT) × (Row × DT))
  | [] => []
  | a :: rest =>
    (rest.filter (fun b => decide (pairOk ss th a b))).map (fun b => (a, b)) ++
      qualPairs ss th rest

/-- Two consecutive output rows (earlier, later) per pair. -/
def flattenPairs (ps : List ((Row × DT) × (Row × DT))) : List Row :=
  ps.flatMap (fun p => [p.1.1, p.2.1])

theorem flattenPairs_nil : flattenPairs [] = [] := rfl

theorem flattenPairs_cons (p : (Row × DT) × (Row × DT)) (ps : List ((Row × DT) × (Row × DT))) :
    flattenPairs (p :: ps) = p.1.1 :: p.2.1 :: flattenPairs ps := rfl

theorem flattenPairs_append (ps1 ps2 : List ((Row × DT) × (Row × DT))) :
    flattenPairs (ps1 ++ ps2) = flattenPairs ps1 ++ flattenPairs ps2 :=
  List.flatMap_append ps1 ps2 _

theorem flattenPairs_length (ps : List ((Row × DT) × (Row × DT))) :
    (flattenPairs ps).length = 2 * ps.length := by
  induction ps with
  | nil => rfl
  | cons p ps ih =>
    rw [flattenPairs_cons]
    simp only [List.length_cons, ih]
    omega

theorem allInner_eq (ss : Bool) (th : Frac) (cap : Nat) (Ai : Row × DT) :
    ∀ (js : List (Row × DT)) (count : Nat) (acc : List Row),
      0 < cap → count < cap →
      allInner ss th cap Ai js count acc =
        (acc ++ flattenPairs
          (((js.filter (fun b => decide (pairOk ss th Ai b))).map (fun b => (Ai, b))).take
            (cap - count)),
         count + min (cap - count)
           ((js.filter (fun b => decide (pairOk ss th Ai b))).length)) := by
  intro js
  induction js with
  | nil =>
    intro count acc _ _
    simp [allInner, flattenPairs]
  | cons Bj rest ih =>
    intro count acc hcap hlt
    by_cases hok : pairOk ss th Ai Bj
    · have hfil : (Bj :: rest).filter (fun b => decide (pairOk ss th Ai b)) =
          Bj :: rest.filter (fun b => decide (pairOk ss th Ai b)) := by
        simp [List.filter_cons, hok]
      rw [hfil]
      simp only [allInner]
      rw [if_neg hok.1, if_neg hok.2]
      by_cases hreach : cap ≤ count + 1
      · rw [if_pos ⟨hcap, hreach⟩]
        have hcc : cap - count = 1 := by omega
        rw [hcc, Prod.mk.injEq]
        refine ⟨?_, ?_⟩
        · simp [flattenPairs_cons, flattenPairs_nil]
        · simp only [List.length_cons]
          omega
      · rw [if_neg (fun hc => hreach hc.2),
          ih (count + 1) (acc ++ [Ai.1, Bj.1]) hcap (by omega)]
        have hcc : cap - count = (cap - (count + 1)) + 1 := by omega
        rw [hcc, Prod.mk.injEq]
        refine ⟨?_, ?_⟩
        · simp [flattenPairs_cons, List.append_assoc]
        · simp only [List.length_cons]
          omega
    · have hfil : (Bj :: rest).filter (fun b => decide (pairOk ss th Ai b)) =
          rest.filter (fun b => decide (pairOk ss th Ai b)) := by
        simp [List.filter_cons, hok]
      rw [hfil]
      simp only [allInner]
      by_cases hc1 : ss = true ∧ Ai.1.split ≠ Bj.1.split
      · rw [if_pos hc1]
        exact ih count acc hcap hlt
      · have hc2 : (Frac.ofInt (toSec Bj.2 - toSec Ai.2)).lt th := by
          by_contra hc2
          exact hok ⟨hc1, hc2⟩
        rw [if_neg hc1, if_pos hc2]
        exact ih count acc hcap hlt

theorem allOuter_eq (ss : Bool) (th : Frac) (cap : Nat) (hcap : 0 < cap) :
    ∀ (l : List (Row × DT)) (count : Nat) (acc : List Row), count < cap →
      allOuter ss th cap l count acc =
        acc ++ flattenPairs ((qualPairs ss th l).take (cap - count)) := by
  intro l
  induction l with
  | nil =>
    intro count acc _
    simp [allOuter, qualPairs, flattenPairs]
  | cons Ai rest ih =>
    intro count acc hlt
    simp only [allOuter]
    rw [allInner_eq ss th cap Ai rest count acc hcap hlt]
    have hq : qualPairs ss th (Ai :: rest) =
        (rest.filter (fun b => decide (pairOk ss th Ai b))).map (fun b => (Ai, b)) ++
          qualPairs ss th rest := rfl
    set F := rest.filter (fun b => decide (pairOk ss th Ai b)) with hF
    by_cases hbr : cap ≤ count + min (cap - count) F.length
    · rw [if_pos ⟨hcap, hbr⟩]
      have hflen : cap - count ≤ F.length := by omega
      rw [hq, List.take_append_eq_append_take]
      have h0 : cap - count - (F.map (fun b => (Ai, b))).length = 0 := by
        simp only [List.length_map]
        omega
      rw [h0, List.take_zero, List.append_nil]
    · rw [if_neg (fun hc => hbr hc.2)]
      have hflen : F.length < cap - count := by omega
      have hmin : min (cap - count) F.length = F.length := by omega
      rw [hmin, ih (count + F.length) _ (by omega), hq, List.take_append_eq_append_take]
      have htake0 : min (cap - count) F.length = F.length := hmin
      have htake1 : (F.map (fun b => (Ai, b))).take (cap - count) =
          F.map (fun b => (Ai, b)) := by
        apply List.take_of_length_le
        simp only [List.length_map]
        omega
      rw [htake1]
      have h2 : cap - count - (F.map (fun b => (Ai, b))).length = cap - (count + F.length) := by
        simp only [List.length_map]
        omega
      rw [h2, flattenPairs_append, List.append_assoc]

theorem allInner_eq0 (ss : Bool) (th : Frac) (Ai : Row × DT) :
    ∀ (js : List (Row × DT)) (count : Nat) (acc : List Row),
      allInner ss th 0 Ai js count acc =
        (acc ++ flattenPairs
          ((js.filter (fun b => decide (pairOk ss th Ai b))).map (fun b => (Ai, b))),
         count + (js.filter (fun b => decide (pairOk ss th Ai b))).length) := by
  intro js
  induction js with
  | nil =>
    intro count acc
    simp [allInner, flattenPairs]
  | cons Bj rest ih =>
    intro count acc
    by_cases hok : pairOk ss th Ai Bj
    · have hfil : (Bj :: rest).filter (fun b => decide (pairOk ss th Ai b)) =
          Bj :: rest.filter (fun b => decide (pairOk ss th Ai b)) := by
        simp [List.filter_cons, hok]
      rw [hfil]
      simp only [allInner]
      rw [if_neg hok.1, if_neg hok.2, if_neg (by simp), ih (count + 1) (acc ++ [Ai.1, Bj.1]),
        Prod.mk.injEq]
      refine ⟨?_, ?_⟩
      · simp [flattenPairs_cons, List.append_assoc]
      · simp only [List.length_cons]
        omega
    · have hfil : (Bj :: rest).filter (fun b => decide (pairOk ss th Ai b)) =
          rest.filter (fun b => decide (pairOk ss th Ai b)) := by
        simp [List.filter_cons, hok]
      rw [hfil]
      simp only [allInner]
      by_cases hc1 : ss = true ∧ Ai.1.split ≠ Bj.1.split
      · rw [if_pos hc1]
        exact ih count acc
      · have hc2 : (Frac.ofInt (toSec Bj.2 - toSec Ai.2)).lt th := by
          by_contra hc2
          exact hok ⟨hc1, hc2⟩
        rw [if_neg hc1, if_pos hc2]
        exact ih count acc

theorem allOuter_eq0 (ss : Bool) (th : Frac) :
    ∀ (l : List (Row × DT)) (count : Nat) (acc : List Row),
      allOuter ss th 0 l count acc = acc ++ flattenPairs (qualPairs ss th l) := by
  intro l
  induction l with
  | nil =>
    intro count acc
    simp [allOuter, qualPairs, flattenPairs]
  | cons Ai rest ih =>
    intro count acc
    simp only [allOuter]
    rw [allInner_eq0 ss th Ai rest count acc, if_neg (by simp), ih]
    have hq : qualPairs ss th (Ai :: rest) =
        (rest.filter (fun b => decide (pairOk ss th Ai b))).map (fun b => (Ai, b)) ++
          qualPairs ss th rest := rfl
    rw [hq, flattenPairs_append, List.append_assoc]

theorem sorted_rel_getLast :
    ∀ (l : List (Row × DT)), List.Sorted dtLe l → ∀ e ∈ l, ∀ (hne : l ≠ []),
      dtLe e (l.getLast hne) := by
  intro l
  induction l with
  | nil => intro _ e he; simp at he
  | cons a tl ih =>
    intro hs e he hne
    cases tl with
    | nil =>
      simp at he
      subst he
      exact Int.le_refl _
    | cons b tl2 =>
      rw [List.getLast_cons (by simp)]
      rcases List.mem_cons.mp he with he | he
      · subst he
        exact List.rel_of_sorted_cons hs _ (List.getLast_mem _)
      · exact ih hs.of_cons e he (by simp)

/-- Characterisation of edge mode per group: the emitted pair is (head,
last) of the stable sort — timestamp-minimal and -maximal rows — and it is
emitted iff the same-split and gap constraints hold. -/
theorem emitEdge_characterization (ss : Bool) (th : Frac) (cap : Nat)
    (lst : List (Row × DT)) (h2 : 2 ≤ lst.length) :
    ∃ (A B : Row × DT) (tl : List (Row × DT)),
      sortByDt lst = A :: tl ∧ (sortByDt lst).getLast? = some B ∧
      (∀ e ∈ lst, toSec A.2 ≤ toSec e.2 ∧ toSec e.2 ≤ toSec B.2) ∧
      emitGroup .edge ss th cap lst =
        (if ¬(ss = true ∧ A.1.split ≠ B.1.split) ∧
            ¬(Frac.ofInt (toSec B.2 - toSec A.2)).lt th
         then [A.1, B.1] else []) := by
  have hsorted := List.sorted_insertionSort dtLe lst
  have hperm := List.perm_insertionSort dtLe lst
  cases hs : sortByDt lst with
  | nil =>
    have hlen := hperm.length_eq
    rw [show List.insertionSort dtLe lst = sortByDt lst from rfl, hs] at hlen
    simp at hlen
    omega
  | cons A tl =>
    have hne : (A :: tl) ≠ [] := by simp
    refine ⟨A, (A :: tl).getLast hne, tl, rfl, ?_, ?_, ?_⟩
    · exact List.getLast?_eq_getLast _ hne
    · intro e he
      have hmem : e ∈ sortByDt lst :=
        (List.mem_insertionSort dtLe).mpr he
      rw [hs] at hmem
      have hsorted2 : List.Sorted dtLe (A :: tl) := by
        rw [← hs]
        exact hsorted
      constructor
      · rcases List.mem_cons.mp hmem with hm | hm
        · subst hm
          exact Int.le_refl _
        · exact List.rel_of_sorted_cons hsorted2 e hm
      · exact sorted_rel_getLast _ hsorted2 e hmem hne
    · unfold emitGroup
      rw [if_neg (by omega), hs]
      simp only [emitEdge]
      by_cases hc1 : ss = true ∧ A.1.split ≠ ((A :: tl).getLast hne).1.split
      · rw [if_pos hc1, if_neg (fun hc => hc.1 hc1)]
      · rw [if_neg hc1]
        by_cases hc2 : (Frac.ofInt (toSec ((A :: tl).getLast hne).2 - toSec A.2)).lt th
        · rw [if_pos hc2, if_neg (fun hc => hc.2 hc2)]
        · rw [if_neg hc2, if_pos ⟨hc1, hc2⟩]

theorem qualPairs_ordered (ss : Bool) (th : Frac) :
    ∀ (l : List (Row × DT)), List.Sorted dtLe l →
      ∀ p ∈ qualPairs ss th l, toSec p.1.2 ≤ toSec p.2.2 := by
  intro l
  induction l with
  | nil =>
    intro _ p hp
    simp [qualPairs] at hp
  | cons a rest ih =>
    intro hs p hp
    simp only [qualPairs] at hp
    rcases List.mem_append.mp hp with hp | hp
    · obtain ⟨b, hb, hpeq⟩ := List.mem_map.mp hp
      subst hpeq
      exact List.rel_of_sorted_cons hs b (List.mem_of_mem_filter hb)
    · exact ih hs.of_cons p hp

theorem emitGroup_pairs (pairing : Pairing) (ss : Bool) (th : Frac) (cap : Nat)
    (lst : List (Row × DT)) :
    ∃ ps, emitGroup pairing ss th cap lst = flattenPairs ps ∧
      ∀ p ∈ ps, toSec p.1.2 ≤ toSec p.2.2 := by
  by_cases h2 : lst.length < 2
  · refine ⟨[], ?_, by simp⟩
    unfold emitGroup
    rw [if_pos h2]
    rfl
  · cases pairing with
    | edge =>
      obtain ⟨A, B, tl, hs, hB, hbound, hemit⟩ :=
        emitEdge_characterization ss th cap lst (by omega)
      have hBmem : B ∈ lst := by
        have hmem : B ∈ sortByDt lst := List.mem_of_mem_getLast? hB
        exact (List.mem_insertionSort dtLe).mp hmem
      have hAB : toSec A.2 ≤ toSec B.2 := (hbound B hBmem).1
      by_cases hcond : ¬(ss = true ∧ A.1.split ≠ B.1.split) ∧
          ¬(Frac.ofInt (toSec B.2 - toSec A.2)).lt th
      · refine ⟨[(A, B)], ?_, ?_⟩
        · rw [hemit, if_pos hcond]
          rfl
        · intro p hp
          simp at hp
          subst hp
          exact hAB
      · refine ⟨[], ?_, by simp⟩
        rw [hemit, if_neg hcond]
        rfl
    | allPairs =>
      have hsorted := List.sorted_insertionSort dtLe lst
      by_cases hcap : 0 < cap
      · refine ⟨(qualPairs ss th (sortByDt lst)).take cap, ?_, ?_⟩
        · unfold emitGroup
          rw [if_neg h2, allOuter_eq ss th cap hcap _ 0 [] hcap]
          simp
        · intro p hp
          exact qualPairs_ordered ss th _ hsorted p (List.mem_of_mem_take hp)
      · have hcap0 : cap = 0 := by omega
        subst hcap0
        refine ⟨qualPairs ss th (sortByDt lst), ?_, ?_⟩
        · unfold emitGroup
          rw [if_neg h2, allOuter_eq0]
          rfl
        · intro p hp
          exact qualPairs_ordered ss th _ hsorted p hp

theorem foldl_emit_pairs (pairing : Pairing) (ss : Bool) (th : Frac) (cap : Nat) :
    ∀ (gs : List (List Char × List (Row × DT))) (acc : List Row)
      (ps0 : List ((Row × DT) × (Row × DT))),
      acc = flattenPairs ps0 → (∀ p ∈ ps0, toSec p.1.2 ≤ toSec p.2.2) →
      ∃ ps, List.foldl (fun acc g => acc ++ emitGroup pairing ss th cap g.2) acc gs =
        flattenPairs ps ∧ ∀ p ∈ ps, toSec p.1.2 ≤ toSec p.2.2 := by
  intro gs
  induction gs with
  | nil =>
    intro acc ps0 h1 h2
    exact ⟨ps0, by simp [h1], h2⟩
  | cons g gs ih =>
    intro acc ps0 h1 h2
    rw [List.foldl_cons]
    obtain ⟨psg, hg1, hg2⟩ := emitGroup_pairs pairing ss th cap g.2
    apply ih (acc ++ emitGroup pairing ss th cap g.2) (ps0 ++ psg)
    · rw [h1, hg1, flattenPairs_append]
    · intro p hp
      rcases List.mem_append.mp hp with hp | hp
      · exact h2 p hp
      · exact hg2 p hp

/-- Concrete three-row input for the C3 counterexample (one subject,
years 2001/2002/2003). -/
def wRowsC3 : List Row :=
  [⟨"S".data, "2001".data, "train".data, [], [], [], [], [], [], []⟩,
   ⟨"S".data, "2002".data, "train".data, [], [], [], [], [], [], []⟩,
   ⟨"S".data, "2003".data, "train".data, [], [], [], [], [], [], []⟩]

/-- C3 counterexample: three same-subject rows (years 2001/2002/2003), mode
"all", cap 1. The code emits one pair (2 rows) because the cap breaks out
of BOTH loops; under the claim's continue-to-next-i semantics a second pair
anchored at the next earlier row would also be emitted (4 rows). -/
theorem build_B_cap_counterexample :
    (build_B .allPairs 0 (Frac.ofInt 0) false 1 .exact wRowsC3).length = 2 ∧
    (build_B_claimC3 .allPairs 0 (Frac.ofInt 0) false 1 .exact wRowsC3).length = 4 ∧
    build_B .allPairs 0 (Frac.ofInt 0) false 1 .exact wRowsC3 ≠
      build_B_claimC3 .allPairs 0 (Frac.ofInt 0) false 1 .exact wRowsC3 := by
  refine ⟨by decide, by decide, by decide⟩

/-- C3 (amended): in mode "all" with a positive cap, reaching the cap stops
the scan of further `j` for the current `i` AND stops the whole group (no
continuation to the next `i`): the group's output is exactly the first
`min(cap, total)` qualifying pairs in (i, j) scan order over the sorted
group, two rows each. -/
theorem emitGroup_all_cap (ss : Bool) (th : Frac) (cap : Nat) (hcap : 0 < cap)
    (lst : List (Row × DT)) :
    emitGroup .allPairs ss th cap lst =
      if lst.length < 2 then []
      else flattenPairs ((qualPairs ss th (sortByDt lst)).take cap) := by
  unfold emitGroup
  split_ifs with h
  · rfl
  · rw [allOuter_eq ss th cap hcap (sortByDt lst) 0 [] hcap]
    simp

/-- Concrete timestamped group for the C3 witness. -/
def wGroupC3 : List (Row × DT) :=
  [(⟨"S".data, "2001".data, "train".data, [], [], [], [], [], [], []⟩, ⟨2001, 1, 1, 0, 0, 0⟩),
   (⟨"S".data, "2002".data, "train".data, [], [], [], [], [], [], []⟩, ⟨2002, 1, 1, 0, 0, 0⟩),
   (⟨"S".data, "2003".data, "train".data, [], [], [], [], [], [], []⟩, ⟨2003, 1, 1, 0, 0, 0⟩)]

/-- C3 witness: `emitGroup_all_cap` at the counterexample's group. -/
theorem emitGroup_all_cap_witness :
    emitGroup .allPairs false (Frac.ofInt 0) 1 wGroupC3 =
      if wGroupC3.length < 2 then []
      else flattenPairs ((qualPairs false (Frac.ofInt 0) (sortByDt wGroupC3)).take 1) :=
  emitGroup_all_cap false (Frac.ofInt 0) 1 (by decide) wGroupC3

/-- C5: per subject group with at least two timestamped rows, edge mode
emits exactly one pair — the timestamp-earliest and timestamp-latest rows
(head and last of the stable chronological sort) — iff the same-split
constraint (when enabled) and the minimum-gap threshold
`min_days + min_years*365.2425` days are satisfied; otherwise zero pairs. -/
theorem emitGroup_edge_claim (ss : Bool) (th : Frac) (cap : Nat)
    (lst : List (Row × DT)) (h2 : 2 ≤ lst.length) :
    ∃ (A B : Row × DT) (tl : List (Row × DT)),
      sortByDt lst = A :: tl ∧ (sortByDt lst).getLast? = some B ∧
      (∀ e ∈ lst, toSec A.2 ≤ toSec e.2 ∧ toSec e.2 ≤ toSec B.2) ∧
      emitGroup .edge ss th cap lst =
        (if ¬(ss = true ∧ A.1.split ≠ B.1.split) ∧
            ¬(Frac.ofInt (toSec B.2 - toSec A.2)).lt th
         then [A.1, B.1] else []) :=
  emitEdge_characterization ss th cap lst h2

/-- Concrete timestamped two-row group for the C5 witness. -/
def wGroupC5 : List (Row × DT) :=
  [(⟨"S".data, "2001".data, "train".data, [], [], [], [], [], [], []⟩, ⟨2001, 1, 1, 0, 0, 0⟩),
   (⟨"S".data, "2003".data, "train".data, [], [], [], [], [], [], []⟩, ⟨2003, 1, 1, 0, 0, 0⟩)]

/-- C5 witness: `emitGroup_edge_claim` on a concrete two-row group. -/
theorem emitGroup_edge_claim_witness :
    ∃ (A B : Row × DT) (tl : List (Row × DT)),
      sortByDt wGroupC5 = A :: tl ∧ (sortByDt wGroupC5).getLast? = some B ∧
      (∀ e ∈ wGroupC5, toSec A.2 ≤ toSec e.2 ∧ toSec e.2 ≤ toSec B.2) ∧
      emitGroup .edge true (Frac.ofInt 0) 0 wGroupC5 =
        (if ¬(true = true ∧ A.1.split ≠ B.1.split) ∧
            ¬(Frac.ofInt (toSec B.2 - toSec A.2)).lt (Frac.ofInt 0)
         then [A.1, B.1] else []) :=
  emitGroup_edge_claim true (Frac.ofInt 0) 0 wGroupC5 (by decide)

/-- C7: for every configuration and input, the B.csv data rows are exactly
a flattening of the list of accepted pairs — two consecutive rows per pair
with the chronologically earlier row first — so the row count is even and
equals twice the accepted pair count. -/
theorem build_B_pairs_claim (pairing : Pairing) (min_days : Int) (min_years : Frac)
    (ss : Bool) (cap : Nat) (mode : GroupMode) (rows : List Row) :
    ∃ ps : List ((Row × DT) × (Row × DT)),
      build_B pairing min_days min_years ss cap mode rows = flattenPairs ps ∧
      (build_B pairing min_days min_years ss cap mode rows).length = 2 * ps.length ∧
      ∀ p ∈ ps, toSec p.1.2 ≤ toSec p.2.2 := by
  obtain ⟨ps, h1, h2⟩ := foldl_emit_pairs pairing ss (thresholdSec min_days min_years) cap
    (buildGroups mode (enrich rows)) [] [] rfl (by simp)
  have hb : build_B pairing min_days min_years ss cap mode rows =
      List.foldl (fun acc g =>
        acc ++ emitGroup pairing ss (thresholdSec min_days min_years) cap g.2)
        [] (buildGroups mode (enrich rows)) := rfl
  refine ⟨ps, ?_, ?_, h2⟩
  · rw [hb, h1]
  · rw [hb, h1, flattenPairs_length]

/-! ### The two dataset-row builders (C6)

Default builder: the main loop of `convert_to_dataset_csv.py` (lines
141-198). The pre-built directory index `subj2warped` and the set of
existing files `fs` (for the segmentation probe) are explicit inputs.
Manifest-merge builder: the row loop of `build_dataset` in
`prepare_csv_build.py` (lines 141-177); `find_adni` (a date-proximity
lookup into the ADNI index) and the float age formatting are oracle
parameters — the claim does not depend on them. -/

structure InRow where
  subject_id : List Char
  image_id : List Char
  series_id : List Char
  image_visit : List Char
  split : List Char
deriving DecidableEq, Repr

structure Meta4 where
  sex : List Char
  age : List Char
  diagnosis : List Char
  last_diagnosis : List Char
deriving DecidableEq, Repr

/-- Candidate pool assembly (lines 158-168): subject-directory hit, then
directories whose name starts with / contains the image id, then the full
pool as a fallback. -/
def buildCands (subj2warped : List (List Char × List PPath))
    (subject_id image_id : List Char) : List PPath :=
  let c1 := if subject_id ≠ [] then
      (((subj2warped.find? (fun p => p.1 = subject_id)).map Prod.snd).getD [])
    else []
  let c2 := if image_id ≠ [] then
      (subj2warped.filter
        (fun p => image_id.isPrefixOf p.1 || decide (image_id <:+: p.1))).flatMap Prod.snd
    else []
  let cands := c1 ++ c2
  if cands = [] then subj2warped.flatMap Prod.snd else cands

/-- `find_segm_near` (lines 66-72): probe the two fixed filename variants
in the chosen image's directory; `fs` is the set of existing files. -/
def find_segm_near (fs : List PPath) (warped : PPath) : Option PPath :=
  let p1 : PPath := ⟨warped.segs.dropLast ++ ["segm.nii.gz".data]⟩
  let p2 : PPath := ⟨warped.segs.dropLast ++ ["segm.nii".data]⟩
  if p1 ∈ fs then some p1 else if p2 ∈ fs then some p2 else none

/-- `pathlib.Path.name`. -/
def pathName (p : PPath) : List Char := (p.segs.getLast?).getD []

/-- `pathlib.Path.stem`: name minus its last suffix (a suffix needs a dot
after position 0). -/
def pyStem (n : List Char) : List Char :=
  let i := (n.reverse.takeWhile (fun c => c ≠ '.')).length
  if i < n.length ∧ 0 < n.length - i - 1 then n.take (n.length - i - 1) else n

/-- The row built for a matched image (lines 173-197). -/
def convRowOf (fs : List PPath) (meta : List (List Char × Meta4)) (r : InRow)
    (warped : PPath) : Row :=
  let subject_id := normalize r.subject_id
  let image_id := normalize r.image_id
  let split := if normalize r.split = [] then "train".data else normalize r.split
  let segm := find_segm_near fs warped
  let image_path := warped.posix
  let segm_path := match segm with | some sp => sp.posix | none => []
  let latent_path := latent_of image_path
  let image_uid := if image_id ≠ [] then image_id
    else if ".nii.gz".data <:+ pathName warped then
      (pathName warped).take ((pathName warped).length - 7)
    else pyStem (pathName warped)
  let m := (meta.find? (fun p => p.1 = subject_id)).map Prod.snd
  { subject_id := subject_id
    image_uid := image_uid
    split := split
    sex := match m with | some mm => mm.sex | none => []
    age := match m with | some mm => mm.age | none => []
    diagnosis := match m with | some mm => mm.diagnosis | none => []
    last_diagnosis := match m with | some mm => mm.last_diagnosis | none => []
    image_path := image_path
    segm_path := segm_path
    latent_path := latent_path }

structure ConvSt where
  out : List Row
  skipped : Nat
  matched : Nat
deriving DecidableEq, Repr

/-- One iteration of the main loop (lines 151-198): an unmatched row is
counted as skipped and NOT emitted; a matched row is appended. -/
def processRow (subj2warped : List (List Char × List PPath)) (fs : List PPath)
    (meta : List (List Char × Meta4)) (st : ConvSt) (r : InRow) : ConvSt :=
  let subject_id := normalize r.subject_id
  let image_id := normalize r.image_id
  match choose_best (buildCands subj2warped subject_id image_id)
      subject_id image_id (normalize r.series_id) (normalize r.image_visit) with
  | none => { st with skipped := st.skipped + 1 }
  | some warped =>
    { st with out := st.out ++ [convRowOf fs meta r warped], matched := st.matched + 1 }

/-- The full default-builder loop. -/
def processAll (subj2warped : List (List Char × List PPath)) (fs : List PPath)
    (meta : List (List Char × Meta4)) (rows : List InRow) : ConvSt :=
  rows.foldl (processRow subj2warped fs meta) ⟨[], 0, 0⟩

/-- `pick_first` from `prepare_csv_build.py` (lines 55-58), two values. -/
def pick_first (a b : List Char) : List Char := if a ≠ [] then a else b

/-- `re.sub(r'^[iI]', '', uid)`: strip one leading i/I. -/
def stripI (l : List Char) : List Char :=
  match l with
  | c :: rest => if c = 'i' ∨ c = 'I' then rest else l
  | [] => []

/-- `normalize_dx` from `prepare_csv_build.py` (lines 66-71). -/
def normalize_dx (v : List Char) : List Char :=
  if stripUpper v = "CN".data ∨ stripUpper v = "CONTROL".data ∨
      stripUpper v = "NORMAL".data then "0".data
  else if stripUpper v = "MCI".data ∨ stripUpper v = "EMCI".data ∨
      stripUpper v = "LMCI".data then "0.5".data
  else if stripUpper v = "AD".data ∨ stripUpper v = "DEMENTIA".data ∨
      stripUpper v = "ALZHEIMERS".data then "1".data
  else []

/-- A CSV row as an association list (column name → value). -/
def Assoc : Type := List (List Char × List Char)

/-- `row.get(col, '')` with a possibly-absent column name. -/
def aget (m : Assoc) (k : Option (List Char)) : List Char :=
  match k with
  | none => []
  | some key => (((m.find? (fun p => p.1 = key)).map Prod.snd).getD [])

/-- The resolved source columns of `build_dataset`. -/
structure MergeCols where
  man_subj_col : Option (List Char)
  man_uid_col : Option (List Char)
  adni_subj_col : Option (List Char)
  adni_uid_col : Option (List Char)
  sex_col : Option (List Char)
  age_col : Option (List Char)
  dx_col : Option (List Char)
  split_col : Option (List Char)

/-- `subj` of a manifest row (line 144). -/
def mergeSubj (findAdni : Assoc → Option Assoc) (cols : MergeCols) (mr : Assoc) : List Char :=
  pick_first (aget mr cols.man_subj_col) (aget ((findAdni mr).getD []) cols.adni_subj_col)

/-- `uid` of a manifest row (lines 145-146). -/
def mergeUid (findAdni : Assoc → Option Assoc) (cols : MergeCols) (mr : Assoc) : List Char :=
  stripI (pick_first (aget mr cols.man_uid_col) (aget ((findAdni mr).getD []) cols.adni_uid_col))

/-- The row emitted by the manifest-merge builder (lines 149-177). -/
def mergeRowOf (findAdni : Assoc → Option Assoc) (ageFmt : List Char → List Char)
    (path_map : List (List Char × (List Char × List Char))) (cols : MergeCols)
    (mr : Assoc) : Row :=
  let ad := (findAdni mr).getD []
  let subj := mergeSubj findAdni cols mr
  let uid := mergeUid findAdni cols mr
  let sex_raw := normalize_sex (aget ad cols.sex_col)
  let sex := if sex_raw = "M".data then "0".data
    else if sex_raw = "F".data then "1".data else []
  let age := ageFmt (aget ad cols.age_col)
  let dx := normalize_dx (aget ad cols.dx_col)
  let split := match cols.split_col with
    | none => []
    | some sc =>
      if (mr.find? (fun p => p.1 = sc)).isSome then aget mr (some sc)
      else if (ad.find? (fun p => p.1 = sc)).isSome then aget ad (some sc)
      else []
  let entry := ((path_map.find? (fun p => p.1 = uid)).map Prod.snd).getD ([], [])
  { subject_id := subj, image_uid := uid, split := split, sex := sex, age := age,
    diagnosis := dx, last_diagnosis := dx, image_path := entry.1, segm_path := entry.2,
    latent_path := [] }

/-- The manifest-merge row loop (lines 141-177): skip a row iff both subj
and uid are empty (`if not subj and not uid: continue`). -/
def mergeLoop (findAdni : Assoc → Option Assoc) (ageFmt : List Char → List Char)
    (path_map : List (List Char × (List Char × List Char))) (cols : MergeCols)
    (mrs : List Assoc) : List Row :=
  mrs.foldl (fun out mr =>
    if mergeSubj findAdni cols mr = [] ∧ mergeUid findAdni cols mr = [] then out
    else out ++ [mergeRowOf findAdni ageFmt path_map cols mr]) []

theorem mergeLoop_foldl (findAdni : Assoc → Option Assoc) (ageFmt : List Char → List Char)
    (path_map : List (List Char × (List Char × List Char))) (cols : MergeCols) :
    ∀ (mrs : List Assoc) (acc : List Row),
      mrs.foldl (fun out mr =>
        if mergeSubj findAdni cols mr = [] ∧ mergeUid findAdni cols mr = [] then out
        else out ++ [mergeRowOf findAdni ageFmt path_map cols mr]) acc =
      acc ++ (mrs.filter (fun mr =>
        decide (¬(mergeSubj findAdni cols mr = [] ∧ mergeUid findAdni cols mr = [])))).map
        (mergeRowOf findAdni ageFmt path_map cols) := by
  intro mrs
  induction mrs with
  | nil => intro acc; simp
  | cons mr mrs ih =>
    intro acc
    rw [List.foldl_cons]
    by_cases h : mergeSubj findAdni cols mr = [] ∧ mergeUid findAdni cols mr = []
    · rw [if_pos h, ih]
      have hfil : (mr :: mrs).filter (fun mr =>
          decide (¬(mergeSubj findAdni cols mr = [] ∧ mergeUid findAdni cols mr = []))) =
          mrs.filter (fun mr =>
            decide (¬(mergeSubj findAdni cols mr = [] ∧ mergeUid findAdni cols mr = []))) := by
        simp [List.filter_cons, h]
      rw [hfil]
    · rw [if_neg h, ih]
      have hfil : (mr :: mrs).filter (fun mr =>
          decide (¬(mergeSubj findAdni cols mr = [] ∧ mergeUid findAdni cols mr = []))) =
          mr :: mrs.filter (fun mr =>
            decide (¬(mergeSubj findAdni cols mr = [] ∧ mergeUid findAdni cols mr = []))) := by
        simp [List.filter_cons, h]
      rw [hfil, List.map_cons, List.append_assoc, List.singleton_append]

/-- C6 counterexample: with an empty directory index, the source row finds
no candidate; the default builder counts it as skipped and emits NOTHING —
not a row with empty path fields as claimed (output list is empty). -/
theorem convert_unmatched_not_emitted :
    processAll [] [] [] [⟨"A".data, "1".data, [], [], []⟩] =
      ⟨[], 1, 0⟩ := by
  decide

/-- C6 (amended): in the default builder an unmatched row is counted
(skipped) and not emitted, while a matched row appends exactly one built
row; in the manifest-merge builder a row is excluded from the output iff
both its subject id and image id are empty. -/
theorem builders_emission_claim :
    (∀ subj2warped fs meta st (r : InRow),
      choose_best (buildCands subj2warped (normalize r.subject_id) (normalize r.image_id))
        (normalize r.subject_id) (normalize r.image_id) (normalize r.series_id)
        (normalize r.image_visit) = none →
      processRow subj2warped fs meta st r = { st with skipped := st.skipped + 1 }) ∧
    (∀ subj2warped fs meta st (r : InRow) w,
      choose_best (buildCands subj2warped (normalize r.subject_id) (normalize r.image_id))
        (normalize r.subject_id) (normalize r.image_id) (normalize r.series_id)
        (normalize r.image_visit) = some w →
      processRow subj2warped fs meta st r =
        { st with out := st.out ++ [convRowOf fs meta r w],
                  matched := st.matched + 1 }) ∧
    (∀ findAdni ageFmt path_map cols (mrs : List Assoc),
      mergeLoop findAdni ageFmt path_map cols mrs =
        (mrs.filter (fun mr =>
          decide (¬(mergeSubj findAdni cols mr = [] ∧
            mergeUid findAdni cols mr = [])))).map
          (mergeRowOf findAdni ageFmt path_map cols)) := by
  refine ⟨?_, ?_, ?_⟩
  · intro subj2warped fs meta st r h
    simp only [processRow]
    rw [h]
  · intro subj2warped fs meta st r w h
    simp only [processRow]
    rw [h]
  · intro findAdni ageFmt path_map cols mrs
    unfold mergeLoop
    rw [mergeLoop_foldl]
    simp

/-- C6 witness: the three branches at concrete inputs (an unmatched row, a
matched row, and a two-row manifest with one both-empty row). -/
theorem builders_emission_claim_witness :
    processRow [] [] [] ⟨[], 0, 0⟩ ⟨"A".data, "1".data, [], [], []⟩ =
      { (⟨[], 0, 0⟩ : ConvSt) with skipped := 0 + 1 } ∧
    processRow [("A".data, [⟨["A".data, "turboprep_Warped.nii.gz".data]⟩])] [] []
        ⟨[], 0, 0⟩ ⟨"A".data, "1".data, [], [], []⟩ =
      { (⟨[], 0, 0⟩ : ConvSt) with
        out := [] ++ [convRowOf [] [] ⟨"A".data, "1".data, [], [], []⟩
          ⟨["A".data, "turboprep_Warped.nii.gz".data]⟩],
        matched := 0 + 1 } ∧
    mergeLoop (fun _ => none) (fun _ => []) [] ⟨some "sid".data, none, none, none,
        none, none, none, none⟩ [[("sid".data, "S1".data)], [("sid".data, [])]] =
      ([[("sid".data, "S1".data)], [("sid".data, ([] : List Char))]].filter (fun mr =>
        decide (¬(mergeSubj (fun _ => none) ⟨some "sid".data, none, none, none,
          none, none, none, none⟩ mr = [] ∧
          mergeUid (fun _ => none) ⟨some "sid".data, none, none, none,
            none, none, none, none⟩ mr = [])))).map
        (mergeRowOf (fun _ => none) (fun _ => []) [] ⟨some "sid".data, none, none, none,
          none, none, none, none⟩) := by
  refine ⟨?_, ?_, ?_⟩
  · exact builders_emission_claim.1 [] [] [] ⟨[], 0, 0⟩ ⟨"A".data, "1".data, [], [], []⟩
      (by decide)
  · exact builders_emission_claim.2.1 [("A".data, [⟨["A".data, "turboprep_Warped.nii.gz".data]⟩])]
      [] [] ⟨[], 0, 0⟩ ⟨"A".data, "1".data, [], [], []⟩
      ⟨["A".data, "turboprep_Warped.nii.gz".data]⟩ (by decide)
  · exact builders_emission_claim.2.2 (fun _ => none) (fun _ => []) []
      ⟨some "sid".data, none, none, none, none, none, none, none⟩
      [[("sid".data, "S1".data)], [("sid".data, [])]]

end BrLP
